import Mathlib

/-!
Verification of the pytoui view-tree runtime against its specification.

The definitions below are a shallow embedding of the Python sources:

* geometry and the view hierarchy (src/pytoui/ui/_view.py),
* color parsing (src/pytoui/ui/_draw.py, parse_color),
* touch dispatch and first-responder tracking (src/pytoui/_base_runtime.py),
* the attribute-animation engine (src/pytoui/ui/_draw.py, _Anim / _record /
  _tick / animate).

Python floats are modelled as rationals (exact arithmetic), Python object
identity as natural-number ids, and the per-thread mutable contexts as
explicit state records threaded through the functions.
-/

namespace Pytoui

/-- Geometry rectangle mirroring ui.Rect: origin (x, y) and size (w, h). -/
structure Rect where
  x : ℚ
  y : ℚ
  w : ℚ
  h : ℚ
deriving DecidableEq, Repr

/-! ## Color parsing (parse_color, integer arm)

Mirrors the `isinstance(c, (float, int))` integer branch of parse_color in
src/pytoui/ui/_draw.py lines 535-546, for non-negative ints (the claim's
domain). Channels are returned as rationals in [0, 1].
-/

/-- Integer arm of parse_color as implemented: for c > 0xFFFFFF the byte
lanes are taken as red = bits 24-31, green = 16-23, blue = 8-15,
alpha = 0-7; otherwise red = bits 16-23, green = 8-15, blue = 0-7 with
alpha 1. -/
def parse_color_int (c : ℕ) : ℚ × ℚ × ℚ × ℚ :=
  if c > 0xFFFFFF then
    ((((c >>> 24) &&& 0xFF : ℕ) : ℚ) / 255,
     (((c >>> 16) &&& 0xFF : ℕ) : ℚ) / 255,
     (((c >>> 8) &&& 0xFF : ℕ) : ℚ) / 255,
     ((c &&& 0xFF : ℕ) : ℚ) / 255)
  else
    ((((c >>> 16) &&& 0xFF : ℕ) : ℚ) / 255,
     (((c >>> 8) &&& 0xFF : ℕ) : ℚ) / 255,
     ((c &&& 0xFF : ℕ) : ℚ) / 255,
     1)

/-- Integer decoding as the specification claim words it: for c > 0xFFFFFF
the packing is 0xAARRGGBB, i.e. alpha = bits 24-31, red = 16-23,
green = 8-15, blue = 0-7. Written from the claim, to compare against
parse_color_int. -/
def parse_color_int_claimed (c : ℕ) : ℚ × ℚ × ℚ × ℚ :=
  if c > 0xFFFFFF then
    ((((c >>> 16) &&& 0xFF : ℕ) : ℚ) / 255,
     (((c >>> 8) &&& 0xFF : ℕ) : ℚ) / 255,
     ((c &&& 0xFF : ℕ) : ℚ) / 255,
     (((c >>> 24) &&& 0xFF : ℕ) : ℚ) / 255)
  else
    ((((c >>> 16) &&& 0xFF : ℕ) : ℚ) / 255,
     (((c >>> 8) &&& 0xFF : ℕ) : ℚ) / 255,
     ((c &&& 0xFF : ℕ) : ℚ) / 255,
     1)

/-- C6 counterexample: at the concrete input 0xFF000000 the implemented
decoding (red = top byte) differs from the claimed 0xAARRGGBB decoding
(alpha = top byte), so the claim as stated is false. -/
theorem c6_counterexample :
    parse_color_int 0xFF000000 ≠ parse_color_int_claimed 0xFF000000 := by
  have h1 : parse_color_int 0xFF000000 = (1, 0, 0, 0) := by
    unfold parse_color_int
    rw [if_pos (by norm_num)]
    norm_num [show (0xFF000000 >>> 24 &&& 0xFF : ℕ) = 255 from by decide,
      show (0xFF000000 >>> 16 &&& 0xFF : ℕ) = 0 from by decide,
      show (0xFF000000 >>> 8 &&& 0xFF : ℕ) = 0 from by decide,
      show (0xFF000000 &&& 0xFF : ℕ) = 0 from by decide]
  have h2 : parse_color_int_claimed 0xFF000000 = (0, 0, 0, 1) := by
    unfold parse_color_int_claimed
    rw [if_pos (by norm_num)]
    norm_num [show (0xFF000000 >>> 24 &&& 0xFF : ℕ) = 255 from by decide,
      show (0xFF000000 >>> 16 &&& 0xFF : ℕ) = 0 from by decide,
      show (0xFF000000 >>> 8 &&& 0xFF : ℕ) = 0 from by decide,
      show (0xFF000000 &&& 0xFF : ℕ) = 0 from by decide]
  rw [h1, h2]
  intro h
  have := congrArg Prod.fst h
  norm_num at this

/-- C6 (amended): parse_color decodes an int 0 ≤ c ≤ 0xFFFFFF as packed
0xRRGGBB with alpha 1, and an int c > 0xFFFFFF as packed 0xRRGGBBAA,
i.e. red from bits 24-31, green from bits 16-23, blue from bits 8-15 and
alpha from bits 0-7, each divided by 255. -/
theorem c6_parse_color_int_decodes_rrggbbaa (c : ℕ) :
    (c ≤ 0xFFFFFF →
      parse_color_int c =
        (((c / 2 ^ 16 % 256 : ℕ) : ℚ) / 255, ((c / 2 ^ 8 % 256 : ℕ) : ℚ) / 255,
         ((c % 256 : ℕ) : ℚ) / 255, 1))
    ∧ (0xFFFFFF < c →
      parse_color_int c =
        (((c / 2 ^ 24 % 256 : ℕ) : ℚ) / 255, ((c / 2 ^ 16 % 256 : ℕ) : ℚ) / 255,
         ((c / 2 ^ 8 % 256 : ℕ) : ℚ) / 255, ((c % 256 : ℕ) : ℚ) / 255)) := by
  have hmask : ∀ n : ℕ, n &&& 255 = n % 256 := fun n =>
    Nat.and_pow_two_sub_one_eq_mod n 8
  have hshift : ∀ n k : ℕ, n >>> k = n / 2 ^ k := Nat.shiftRight_eq_div_pow
  constructor
  · intro h
    unfold parse_color_int
    rw [if_neg (by omega)]
    rw [hmask, hmask, hmask, hshift, hshift]
  · intro h
    unfold parse_color_int
    rw [if_pos (by omega)]
    rw [hmask, hmask, hmask, hmask, hshift, hshift, hshift]

/-- C6 witness: the amended decoding theorem applied at the concrete inputs
0x112233 (low range) and 0x80112233 (high range). -/
theorem c6_witness :
    ((0x112233 : ℕ) ≤ 0xFFFFFF ∧
      parse_color_int 0x112233 =
        (((0x112233 / 2 ^ 16 % 256 : ℕ) : ℚ) / 255,
         ((0x112233 / 2 ^ 8 % 256 : ℕ) : ℚ) / 255,
         ((0x112233 % 256 : ℕ) : ℚ) / 255, 1))
    ∧ ((0xFFFFFF : ℕ) < 0x80112233 ∧
      parse_color_int 0x80112233 =
        (((0x80112233 / 2 ^ 24 % 256 : ℕ) : ℚ) / 255,
         ((0x80112233 / 2 ^ 16 % 256 : ℕ) : ℚ) / 255,
         ((0x80112233 / 2 ^ 8 % 256 : ℕ) : ℚ) / 255,
         ((0x80112233 % 256 : ℕ) : ℚ) / 255)) :=
  ⟨⟨by decide, (c6_parse_color_int_decodes_rrggbbaa 0x112233).1 (by decide)⟩,
   ⟨by decide, (c6_parse_color_int_decodes_rrggbbaa 0x80112233).2 (by decide)⟩⟩

/-! ## View hierarchy: add_subview / remove_subview

Mirrors View.add_subview and View.remove_subview in src/pytoui/ui/_view.py
lines 388-400. Views are identified by natural-number ids; the mutable
object graph (each view's _superview pointer and _subviews list) becomes an
explicit state record. Python's list.remove raises ValueError when the
element is absent, modelled by Except. -/

/-- State of the view hierarchy: the _superview back-pointer and the
_subviews list of every view id. -/
structure TreeSt where
  parent : ℕ → Option ℕ
  children : ℕ → List ℕ

/-- All views detached, as constructed by View.__init__. -/
def initTree : TreeSt :=
  { parent := fun _ => none, children := fun _ => [] }

/-- View.remove_subview: self._subviews.remove(view) raises if view is not
a direct child (state unchanged); otherwise the first occurrence is removed
and view._superview is set to None. -/
def remove_subview (s : TreeSt) (p v : ℕ) : Except Unit TreeSt :=
  if v ∈ s.children p then
    .ok { parent := Function.update s.parent v none,
          children := Function.update s.children p ((s.children p).erase v) }
  else
    .error ()

/-- View.add_subview: early return when view._superview is already self;
otherwise detach from any prior parent via remove_subview, then append to
self._subviews and set view._superview. -/
def add_subview (s : TreeSt) (p v : ℕ) : Except Unit TreeSt :=
  if s.parent v = some p then
    .ok s
  else
    let detach : Except Unit TreeSt :=
      match s.parent v with
      | some q => remove_subview s q v
      | none => .ok s
    match detach with
    | .error e => .error e
    | .ok s1 =>
        .ok { parent := Function.update s1.parent v (some p),
              children := Function.update s1.children p (s1.children p ++ [v]) }

/-- One call in a sequence of subview operations. -/
inductive TreeOp where
  | add (p v : ℕ)
  | remove (p v : ℕ)

/-- Execute one call; a raised exception leaves the hierarchy unchanged
(both methods fail before mutating anything). -/
def stepTree (s : TreeSt) : TreeOp → TreeSt
  | .add p v =>
      match add_subview s p v with
      | .ok s1 => s1
      | .error _ => s
  | .remove p v =>
      match remove_subview s p v with
      | .ok s1 => s1
      | .error _ => s

/-- Run a sequence of add_subview / remove_subview calls from detached
views. -/
def runTree (ops : List TreeOp) : TreeSt :=
  ops.foldl stepTree initTree

/-- Well-formedness of the hierarchy: the parent back-pointer agrees with
list membership, and no subview list has duplicates. -/
def TreeWF (s : TreeSt) : Prop :=
  (∀ v p, s.parent v = some p ↔ v ∈ s.children p) ∧
    (∀ p, (s.children p).Nodup)

theorem treeWF_init : TreeWF initTree := by
  constructor
  · intro v p
    simp [initTree]
  · intro p
    simp [initTree]

theorem remove_subview_ok {s : TreeSt} {p v : ℕ} (hv : v ∈ s.children p) :
    remove_subview s p v =
      .ok { parent := Function.update s.parent v none,
            children := Function.update s.children p ((s.children p).erase v) } := by
  unfold remove_subview
  rw [if_pos hv]

theorem remove_subview_error {s : TreeSt} {p v : ℕ} (hv : v ∉ s.children p) :
    remove_subview s p v = .error () := by
  unfold remove_subview
  rw [if_neg hv]

theorem treeWF_remove_state {s : TreeSt} {p v : ℕ} (hWF : TreeWF s)
    (hv : v ∈ s.children p) :
    TreeWF { parent := Function.update s.parent v none,
             children := Function.update s.children p ((s.children p).erase v) } := by
  obtain ⟨hpc, hnd⟩ := hWF
  constructor
  · intro u q
    dsimp only
    by_cases huv : u = v
    · rw [huv, Function.update_same]
      constructor
      · intro h0
        exact Option.noConfusion h0
      · intro hmem
        by_cases hqp : q = p
        · rw [hqp, Function.update_same] at hmem
          exact absurd rfl ((hnd p).mem_erase_iff.mp hmem).1
        · rw [Function.update_noteq hqp] at hmem
          have h1 := (hpc v q).mpr hmem
          have h2 := (hpc v p).mpr hv
          rw [h1] at h2
          exact absurd (Option.some.inj h2) hqp
    · rw [Function.update_noteq huv]
      by_cases hqp : q = p
      · rw [hqp, Function.update_same, List.mem_erase_of_ne huv]
        exact hpc u p
      · rw [Function.update_noteq hqp]
        exact hpc u q
  · intro q
    dsimp only
    by_cases hqp : q = p
    · rw [hqp, Function.update_same]
      exact (hnd p).erase v
    · rw [Function.update_noteq hqp]
      exact hnd q

theorem remove_state_detached {s : TreeSt} {p v : ℕ} (hWF : TreeWF s)
    (hv : v ∈ s.children p) (q : ℕ) :
    v ∉ Function.update s.children p ((s.children p).erase v) q := by
  obtain ⟨hpc, hnd⟩ := hWF
  by_cases hqp : q = p
  · rw [hqp, Function.update_same]
    intro hmem
    exact absurd rfl ((hnd p).mem_erase_iff.mp hmem).1
  · rw [Function.update_noteq hqp]
    intro hmem
    have h1 := (hpc v q).mpr hmem
    have h2 := (hpc v p).mpr hv
    rw [h1] at h2
    exact absurd (Option.some.inj h2) hqp

theorem treeWF_append {s2 : TreeSt} (p v : ℕ) (hWF2 : TreeWF s2)
    (hnm : ∀ q, v ∉ s2.children q) :
    TreeWF { parent := Function.update s2.parent v (some p),
             children := Function.update s2.children p (s2.children p ++ [v]) } := by
  obtain ⟨hpc, hnd⟩ := hWF2
  constructor
  · intro u q
    dsimp only
    by_cases huv : u = v
    · rw [huv, Function.update_same]
      by_cases hqp : q = p
      · rw [hqp, Function.update_same]
        simp
      · rw [Function.update_noteq hqp]
        constructor
        · intro h0
          exact absurd (Option.some.inj h0).symm hqp
        · intro hmem
          exact absurd hmem (hnm q)
    · rw [Function.update_noteq huv]
      by_cases hqp : q = p
      · rw [hqp, Function.update_same]
        rw [List.mem_append, List.mem_singleton]
        constructor
        · intro h0
          exact Or.inl ((hpc u p).mp h0)
        · intro h0
          rcases h0 with h0 | h0
          · exact (hpc u p).mpr h0
          · exact absurd h0 huv
      · rw [Function.update_noteq hqp]
        exact hpc u q
  · intro q
    dsimp only
    by_cases hqp : q = p
    · rw [hqp, Function.update_same, List.nodup_append]
      refine ⟨hnd p, List.nodup_singleton v, ?_⟩
      intro a ha hav
      rw [List.mem_singleton] at hav
      exact hnm p (hav ▸ ha)
    · rw [Function.update_noteq hqp]
      exact hnd q

/-- Case analysis of add_subview under well-formedness: either the early
return fires (v already a child of p, state unchanged) or v is detached and
appended at the end of the subview list of p. -/
theorem add_subview_cases {s : TreeSt} (p v : ℕ) (hWF : TreeWF s) :
    (v ∈ s.children p ∧ add_subview s p v = .ok s) ∨
    (v ∉ s.children p ∧ ∃ s2 : TreeSt,
      add_subview s p v =
        .ok { parent := Function.update s2.parent v (some p),
              children := Function.update s2.children p (s2.children p ++ [v]) } ∧
      TreeWF s2 ∧ (∀ q, v ∉ s2.children q)) := by
  obtain ⟨hpc, hnd⟩ := hWF
  by_cases hmem : v ∈ s.children p
  · left
    refine ⟨hmem, ?_⟩
    unfold add_subview
    rw [if_pos ((hpc v p).mpr hmem)]
  · right
    refine ⟨hmem, ?_⟩
    have hpv : s.parent v ≠ some p := fun h0 => hmem ((hpc v p).mp h0)
    cases hq : s.parent v with
    | none =>
        refine ⟨s, ?_, ⟨hpc, hnd⟩, ?_⟩
        · unfold add_subview
          rw [if_neg hpv, hq]
        · intro q hmemq
          have := (hpc v q).mpr hmemq
          rw [hq] at this
          exact Option.noConfusion this
    | some q =>
        have hvq : v ∈ s.children q := (hpc v q).mp hq
        refine ⟨{ parent := Function.update s.parent v none,
                  children := Function.update s.children q ((s.children q).erase v) },
                ?_, treeWF_remove_state ⟨hpc, hnd⟩ hvq,
                remove_state_detached ⟨hpc, hnd⟩ hvq⟩
        unfold add_subview
        rw [if_neg hpv, hq]
        simp only [remove_subview_ok hvq]

theorem treeWF_add {s : TreeSt} {p v : ℕ} (hWF : TreeWF s) {s1 : TreeSt}
    (h : add_subview s p v = .ok s1) : TreeWF s1 := by
  rcases add_subview_cases p v hWF with ⟨-, heq⟩ | ⟨-, s2, heq, hWF2, hnm⟩
  · rw [heq] at h
    injection h with h
    rw [← h]
    exact hWF
  · rw [heq] at h
    injection h with h
    rw [← h]
    exact treeWF_append p v hWF2 hnm

theorem treeWF_step {s : TreeSt} (hWF : TreeWF s) (op : TreeOp) :
    TreeWF (stepTree s op) := by
  cases op with
  | add p v =>
      simp only [stepTree]
      cases h : add_subview s p v with
      | ok s1 => exact treeWF_add hWF h
      | error e => exact hWF
  | remove p v =>
      simp only [stepTree]
      cases h : remove_subview s p v with
      | ok s1 =>
          unfold remove_subview at h
          by_cases hv : v ∈ s.children p
          · rw [if_pos hv] at h
            injection h with h
            rw [← h]
            exact treeWF_remove_state hWF hv
          · rw [if_neg hv] at h
            exact Except.noConfusion h
      | error e => exact hWF

theorem treeWF_foldl (ops : List TreeOp) :
    ∀ s : TreeSt, TreeWF s → TreeWF (ops.foldl stepTree s) := by
  induction ops with
  | nil =>
      intro s h
      exact h
  | cons op rest ih =>
      intro s h
      exact ih _ (treeWF_step h op)

theorem treeWF_run (ops : List TreeOp) : TreeWF (runTree ops) :=
  treeWF_foldl ops initTree treeWF_init

/-- C4: for every sequence of add_subview and remove_subview calls starting
from detached views, every view is in at most one subview list, no subview
list contains a view twice, and the parent back-reference of a view agrees
exactly with membership in the parent's subview list. -/
theorem c4_tree_shape_invariant (ops : List TreeOp) :
    (∀ v p q, v ∈ (runTree ops).children p → v ∈ (runTree ops).children q → p = q)
    ∧ (∀ p, ((runTree ops).children p).Nodup)
    ∧ (∀ v p, (runTree ops).parent v = some p ↔ v ∈ (runTree ops).children p) := by
  obtain ⟨hpc, hnd⟩ := treeWF_run ops
  refine ⟨?_, hnd, hpc⟩
  intro v p q hp hq
  have h1 := (hpc v p).mpr hp
  have h2 := (hpc v q).mpr hq
  rw [h1] at h2
  exact Option.some.inj h2

/-- C7 counterexample: with subviews [1, 2] under view 0, calling
add_subview 0 1 again returns early, so view 1 keeps its old position and
is NOT the last element of the subview list, refuting the claim for the
already-a-child case. -/
theorem c7_counterexample :
    1 ∈ (runTree [TreeOp.add 0 1, TreeOp.add 0 2]).children 0
    ∧ (stepTree (runTree [TreeOp.add 0 1, TreeOp.add 0 2])
        (TreeOp.add 0 1)).parent 1 = some 0
    ∧ ((stepTree (runTree [TreeOp.add 0 1, TreeOp.add 0 2])
        (TreeOp.add 0 1)).children 0).getLast? ≠ some 1 := by
  refine ⟨by decide, by decide, by decide⟩

/-- C7 (amended): in a well-formed hierarchy, after p.add_subview(v) the
parent of v is p; v ends as the last element of p's subview list when it
was not already a child of p, while if v was already a child the call is a
no-op that keeps its position; and p.remove_subview(w) raises exactly when
w is not currently a direct child of p. -/
theorem c7_add_appends_remove_raises (s : TreeSt) (p v w : ℕ)
    (hWF : TreeWF s) :
    (∀ s1, add_subview s p v = .ok s1 →
        s1.parent v = some p
        ∧ (v ∉ s.children p → (s1.children p).getLast? = some v)
        ∧ (v ∈ s.children p → s1 = s))
    ∧ (∃ s1, add_subview s p v = .ok s1)
    ∧ ((∃ s2, remove_subview s p w = .ok s2) ↔ w ∈ s.children p) := by
  obtain ⟨hpc, hnd⟩ := hWF
  refine ⟨?_, ?_, ?_⟩
  · intro s1 h
    rcases add_subview_cases p v ⟨hpc, hnd⟩ with ⟨hmem, heq⟩ | ⟨hmem, s2, heq, -, -⟩
    · rw [heq] at h
      injection h with h
      rw [← h]
      exact ⟨(hpc v p).mpr hmem, fun hno => absurd hmem hno, fun _ => rfl⟩
    · rw [heq] at h
      injection h with h
      rw [← h]
      refine ⟨Function.update_same _ _ _, ?_, fun hyes => absurd hyes hmem⟩
      intro _
      dsimp only
      rw [Function.update_same]
      exact List.getLast?_concat _
  · rcases add_subview_cases p v ⟨hpc, hnd⟩ with ⟨-, heq⟩ | ⟨-, s2, heq, -, -⟩
    · exact ⟨s, heq⟩
    · exact ⟨_, heq⟩
  · constructor
    · intro ⟨s2, h⟩
      by_cases hw : w ∈ s.children p
      · exact hw
      · rw [remove_subview_error hw] at h
        exact Except.noConfusion h
    · intro hw
      exact ⟨_, remove_subview_ok hw⟩

/-- C7 witness: the amended theorem applied to the concrete hierarchy with
subviews [1, 2] under view 0, adding the fresh view 3 and removing the
non-child 9. -/
theorem c7_witness :
    (∀ s1, add_subview (runTree [TreeOp.add 0 1, TreeOp.add 0 2]) 0 3 = .ok s1 →
        s1.parent 3 = some 0
        ∧ (3 ∉ (runTree [TreeOp.add 0 1, TreeOp.add 0 2]).children 0 →
            (s1.children 0).getLast? = some 3)
        ∧ (3 ∈ (runTree [TreeOp.add 0 1, TreeOp.add 0 2]).children 0 →
            s1 = runTree [TreeOp.add 0 1, TreeOp.add 0 2]))
    ∧ (∃ s1, add_subview (runTree [TreeOp.add 0 1, TreeOp.add 0 2]) 0 3 = .ok s1)
    ∧ ((∃ s2, remove_subview (runTree [TreeOp.add 0 1, TreeOp.add 0 2]) 0 9 = .ok s2)
        ↔ 9 ∈ (runTree [TreeOp.add 0 1, TreeOp.add 0 2]).children 0) :=
  c7_add_appends_remove_raises (runTree [TreeOp.add 0 1, TreeOp.add 0 2]) 0 3 9
    (treeWF_run [TreeOp.add 0 1, TreeOp.add 0 2])

/-! ## Frame / bounds setters and autoresizing

Mirrors the frame and bounds property setters, the x/y/width/height/center
shortcuts and View._apply_autoresizing in src/pytoui/ui/_view.py lines
178-299 and 422-447. The geometry of every view id is kept in one state
record; View.layout() is the base-class no-op. The _record interception is
covered by the animation model below; these setters model the
non-recording path, which is the one that mutates geometry. -/

/-- Autoresizing flag set: which of the characters L, W, R, T, H, B are in
the view's flex string. -/
structure Flex where
  L : Bool
  W : Bool
  R : Bool
  T : Bool
  H : Bool
  B : Bool
deriving DecidableEq, Repr

/-- Emptiness test mirroring the Python truthiness test `if not flex`. -/
def Flex.isEmpty (f : Flex) : Bool :=
  !(f.L || f.W || f.R || f.T || f.H || f.B)

/-- Number of flagged horizontal participants: sum(c in flex for c in
"LWR"). -/
def Flex.hCount (f : Flex) : ℕ :=
  (cond f.L 1 0) + (cond f.W 1 0) + (cond f.R 1 0)

/-- Number of flagged vertical participants: sum(c in flex for c in
"THB"). -/
def Flex.vCount (f : Flex) : ℕ :=
  (cond f.T 1 0) + (cond f.H 1 0) + (cond f.B 1 0)

/-- Geometry state of the hierarchy: frame, bounds and flex of every view,
plus the subview lists the autoresizing loop walks. -/
structure GeomSt where
  frame : ℕ → Rect
  bounds : ℕ → Rect
  flex : ℕ → Flex
  children : ℕ → List ℕ

/-- Per-child body of the _apply_autoresizing loop: given the parent size
delta (dw, dh) and the child's flex, compute the child's new frame from
its old frame f. -/
def autoresizeChild (dw dh : ℚ) (flex : Flex) (f : Rect) : Rect :=
  if flex.isEmpty then f
  else
    let hf := flex.hCount
    let xw : ℚ × ℚ :=
      if hf ≠ 0 then
        let share := dw / (hf : ℚ)
        (f.x + (cond flex.L share 0), f.w + (cond flex.W share 0))
      else (f.x, f.w)
    let vf := flex.vCount
    let yh : ℚ × ℚ :=
      if vf ≠ 0 then
        let share := dh / (vf : ℚ)
        (f.y + (cond flex.T share 0), f.h + (cond flex.H share 0))
      else (f.y, f.h)
    ⟨xw.1, yh.1, xw.2, yh.2⟩

/-- One iteration of the subview loop of _apply_autoresizing: overwrite
the child's _frame directly (the setter is bypassed, so the child's bounds
are NOT touched). -/
def autoresizeStep (dw dh : ℚ) (st : GeomSt) (c : ℕ) : GeomSt :=
  { st with
    frame := Function.update st.frame c
      (autoresizeChild dw dh (st.flex c) (st.frame c)) }

/-- View._apply_autoresizing: after the size of view v changed from
(old_w, old_h) to its current bounds size, resize each subview by its flex
flags. -/
def _apply_autoresizing (s : GeomSt) (v : ℕ) (old_w old_h : ℚ) : GeomSt :=
  let dw := (s.bounds v).w - old_w
  let dh := (s.bounds v).h - old_h
  if dw = 0 ∧ dh = 0 then s
  else
    (s.children v).foldl (autoresizeStep dw dh) s

/-- The frame setter (non-recording path): store the new frame; when the
size changed, copy the new size into bounds, run autoresizing with the old
frame size, and run layout (a no-op on the base class). -/
def set_frame (s : GeomSt) (v : ℕ) (r : Rect) : GeomSt :=
  let old := s.frame v
  let s1 := { s with frame := Function.update s.frame v r }
  if r.w ≠ old.w ∨ r.h ≠ old.h then
    let s2 := { s1 with
      bounds := Function.update s1.bounds v
        ⟨(s1.bounds v).x, (s1.bounds v).y, r.w, r.h⟩ }
    _apply_autoresizing s2 v old.w old.h
  else s1

/-- The bounds setter: store the new bounds; when the size changed, copy
the new size into the frame, run autoresizing with the old bounds size, and
run layout. -/
def set_bounds (s : GeomSt) (v : ℕ) (r : Rect) : GeomSt :=
  let old := s.bounds v
  let s1 := { s with bounds := Function.update s.bounds v r }
  if r.w ≠ old.w ∨ r.h ≠ old.h then
    let s2 := { s1 with
      frame := Function.update s1.frame v
        ⟨(s1.frame v).x, (s1.frame v).y, r.w, r.h⟩ }
    _apply_autoresizing s2 v old.w old.h
  else s1

/-- The x shortcut setter: self.frame = Rect(value, f.y, f.w, f.h). -/
def set_x (s : GeomSt) (v : ℕ) (value : ℚ) : GeomSt :=
  set_frame s v ⟨value, (s.frame v).y, (s.frame v).w, (s.frame v).h⟩

/-- The y shortcut setter. -/
def set_y (s : GeomSt) (v : ℕ) (value : ℚ) : GeomSt :=
  set_frame s v ⟨(s.frame v).x, value, (s.frame v).w, (s.frame v).h⟩

/-- The width shortcut setter. -/
def set_width (s : GeomSt) (v : ℕ) (value : ℚ) : GeomSt :=
  set_frame s v ⟨(s.frame v).x, (s.frame v).y, value, (s.frame v).h⟩

/-- The height shortcut setter. -/
def set_height (s : GeomSt) (v : ℕ) (value : ℚ) : GeomSt :=
  set_frame s v ⟨(s.frame v).x, (s.frame v).y, (s.frame v).w, value⟩

/-- The center shortcut setter: self.frame = Rect(cx - w/2, cy - h/2, w, h). -/
def set_center (s : GeomSt) (v : ℕ) (cx cy : ℚ) : GeomSt :=
  set_frame s v
    ⟨cx - (s.frame v).w / 2, cy - (s.frame v).h / 2, (s.frame v).w, (s.frame v).h⟩

theorem autoresize_fold_fixed (dw dh : ℚ) (l : List ℕ) :
    ∀ s : GeomSt,
      (l.foldl (autoresizeStep dw dh) s).bounds = s.bounds
      ∧ (l.foldl (autoresizeStep dw dh) s).flex = s.flex
      ∧ (l.foldl (autoresizeStep dw dh) s).children = s.children := by
  induction l with
  | nil =>
      intro s
      exact ⟨rfl, rfl, rfl⟩
  | cons a rest ih =>
      intro s
      simp only [List.foldl_cons]
      exact ih (autoresizeStep dw dh s a)

theorem autoresize_fold_frame_not_mem (dw dh : ℚ) (l : List ℕ) :
    ∀ (s : GeomSt) (c : ℕ), c ∉ l →
      (l.foldl (autoresizeStep dw dh) s).frame c = s.frame c := by
  induction l with
  | nil =>
      intro s c _
      rfl
  | cons a rest ih =>
      intro s c hc
      simp only [List.mem_cons, not_or] at hc
      simp only [List.foldl_cons]
      rw [ih _ c hc.2]
      exact Function.update_noteq hc.1 _ _

theorem autoresize_fold_frame_mem (dw dh : ℚ) (l : List ℕ) :
    ∀ (s : GeomSt) (c : ℕ), c ∈ l → l.Nodup →
      (l.foldl (autoresizeStep dw dh) s).frame c =
        autoresizeChild dw dh (s.flex c) (s.frame c) := by
  induction l with
  | nil =>
      intro s c hc _
      exact absurd hc (by simp)
  | cons a rest ih =>
      intro s c hc hnd
      simp only [List.foldl_cons]
      rcases List.mem_cons.mp hc with hca | hcr
      · have hcrest : c ∉ rest := by
          rw [hca]
          exact (List.nodup_cons.mp hnd).1
        rw [autoresize_fold_frame_not_mem dw dh rest _ c hcrest]
        rw [hca]
        unfold autoresizeStep
        dsimp only
        rw [Function.update_same]
      · have hca : c ≠ a := by
          intro h0
          rw [h0] at hcr
          exact (List.nodup_cons.mp hnd).1 hcr
        rw [ih _ c hcr (List.nodup_cons.mp hnd).2]
        unfold autoresizeStep
        dsimp only
        rw [Function.update_noteq hca]

/-- The per-child update written as the per-edge split of the claim: on
each axis the parent's delta is divided by the number of flagged edges and
added to exactly the flagged components. -/
theorem autoresizeChild_split (dw dh : ℚ) (F : Flex) (f : Rect) :
    autoresizeChild dw dh F f =
      ⟨f.x + cond F.L (dw / (F.hCount : ℚ)) 0,
       f.y + cond F.T (dh / (F.vCount : ℚ)) 0,
       f.w + cond F.W (dw / (F.hCount : ℚ)) 0,
       f.h + cond F.H (dh / (F.vCount : ℚ)) 0⟩ := by
  rcases F with ⟨l, w, r, t, hgt, b⟩
  cases l <;> cases w <;> cases r <;> cases t <;> cases hgt <;> cases b <;>
    simp [autoresizeChild, Flex.isEmpty, Flex.hCount, Flex.vCount]

/-- Effect of the frame setter on the frame of a direct child of the
resized view. -/
theorem set_frame_child_frame (s : GeomSt) (p c : ℕ) (r : Rect)
    (hc : c ∈ s.children p) (hnd : (s.children p).Nodup) (hcp : c ≠ p) :
    (set_frame s p r).frame c =
      ⟨(s.frame c).x + cond (s.flex c).L ((r.w - (s.frame p).w) / ((s.flex c).hCount : ℚ)) 0,
       (s.frame c).y + cond (s.flex c).T ((r.h - (s.frame p).h) / ((s.flex c).vCount : ℚ)) 0,
       (s.frame c).w + cond (s.flex c).W ((r.w - (s.frame p).w) / ((s.flex c).hCount : ℚ)) 0,
       (s.frame c).h + cond (s.flex c).H ((r.h - (s.frame p).h) / ((s.flex c).vCount : ℚ)) 0⟩ := by
  simp only [set_frame]
  by_cases hch : r.w ≠ (s.frame p).w ∨ r.h ≠ (s.frame p).h
  · rw [if_pos hch]
    simp only [_apply_autoresizing, Function.update_same]
    rw [if_neg (by
      intro h0
      rcases hch with hch | hch
      · exact hch (by linarith [h0.1])
      · exact hch (by linarith [h0.2]))]
    rw [autoresize_fold_frame_mem _ _ _ _ c hc hnd]
    dsimp only
    rw [Function.update_noteq hcp]
    exact autoresizeChild_split _ _ _ _
  · rw [if_neg hch]
    push_neg at hch
    dsimp only
    rw [Function.update_noteq hcp, hch.1, hch.2]
    simp

/-- Bounds of any view other than the one the frame setter targets are
never touched. -/
theorem set_frame_bounds_not_target (s : GeomSt) (v : ℕ) (r : Rect) (u : ℕ)
    (huv : u ≠ v) : (set_frame s v r).bounds u = s.bounds u := by
  simp only [set_frame]
  by_cases hch : r.w ≠ (s.frame v).w ∨ r.h ≠ (s.frame v).h
  · rw [if_pos hch]
    simp only [_apply_autoresizing]
    by_cases h0 : (Function.update s.bounds v
        ⟨(s.bounds v).x, (s.bounds v).y, r.w, r.h⟩ v).w - (s.frame v).w = 0 ∧
        (Function.update s.bounds v
        ⟨(s.bounds v).x, (s.bounds v).y, r.w, r.h⟩ v).h - (s.frame v).h = 0
    · rw [if_pos h0]
      dsimp only
      exact Function.update_noteq huv _ _
    · rw [if_neg h0]
      rw [(autoresize_fold_fixed _ _ _ _).1]
      dsimp only
      exact Function.update_noteq huv _ _
  · rw [if_neg hch]

/-- C5: when the frame setter changes a parent's size by (dw, dh), each
direct child receives on each axis the delta divided by the number of its
flagged edges, added to exactly the flagged components; in particular a
child with flex WH gains exactly (dw, dh) in size with unchanged origin,
and a child with empty flex is unchanged. -/
theorem c5_parent_resize_splits_delta (s : GeomSt) (p c : ℕ) (r : Rect)
    (hc : c ∈ s.children p) (hnd : (s.children p).Nodup) (hcp : c ≠ p) :
    ((set_frame s p r).frame c =
      ⟨(s.frame c).x + cond (s.flex c).L ((r.w - (s.frame p).w) / ((s.flex c).hCount : ℚ)) 0,
       (s.frame c).y + cond (s.flex c).T ((r.h - (s.frame p).h) / ((s.flex c).vCount : ℚ)) 0,
       (s.frame c).w + cond (s.flex c).W ((r.w - (s.frame p).w) / ((s.flex c).hCount : ℚ)) 0,
       (s.frame c).h + cond (s.flex c).H ((r.h - (s.frame p).h) / ((s.flex c).vCount : ℚ)) 0⟩)
    ∧ (s.flex c = ⟨false, true, false, false, true, false⟩ →
        (set_frame s p r).frame c =
          ⟨(s.frame c).x, (s.frame c).y,
           (s.frame c).w + (r.w - (s.frame p).w),
           (s.frame c).h + (r.h - (s.frame p).h)⟩)
    ∧ (s.flex c = ⟨false, false, false, false, false, false⟩ →
        (set_frame s p r).frame c = s.frame c) := by
  have hmain := set_frame_child_frame s p c r hc hnd hcp
  refine ⟨hmain, ?_, ?_⟩
  · intro hF
    rw [hmain, hF]
    norm_num [Flex.hCount, Flex.vCount]
  · intro hF
    rw [hmain, hF]
    norm_num [Flex.hCount, Flex.vCount]

/-- Concrete hierarchy for the autoresizing witness: parent 0 sized
100 x 100 with a WH-flexible child 1 and a rigid child 2. -/
def c5state : GeomSt :=
  { frame := fun i =>
      if i = 0 then ⟨0, 0, 100, 100⟩
      else if i = 1 then ⟨10, 10, 50, 50⟩
      else ⟨20, 20, 30, 30⟩,
    bounds := fun i =>
      if i = 0 then ⟨0, 0, 100, 100⟩
      else if i = 1 then ⟨0, 0, 50, 50⟩
      else ⟨0, 0, 30, 30⟩,
    flex := fun i =>
      if i = 1 then ⟨false, true, false, false, true, false⟩
      else ⟨false, false, false, false, false, false⟩,
    children := fun i => if i = 0 then [1, 2] else [] }

/-- C5 witness: a parent 0 of size 100 x 100 resized to 200 x 150, with a
WH child 1 and a rigid child 2 present in the subview list. -/
theorem c5_witness :
    (1 ∈ c5state.children 0 ∧ (c5state.children 0).Nodup ∧ 1 ≠ 0
      ∧ (set_frame c5state 0 ⟨0, 0, 200, 150⟩).frame 1 =
          ⟨(c5state.frame 1).x, (c5state.frame 1).y,
           (c5state.frame 1).w + ((200 : ℚ) - (c5state.frame 0).w),
           (c5state.frame 1).h + ((150 : ℚ) - (c5state.frame 0).h)⟩)
    ∧ (2 ∈ c5state.children 0
      ∧ (set_frame c5state 0 ⟨0, 0, 200, 150⟩).frame 2 = c5state.frame 2) := by
  constructor
  · exact ⟨by decide, by decide, by decide,
      (c5_parent_resize_splits_delta c5state 0 1 ⟨0, 0, 200, 150⟩
        (by decide) (by decide) (by decide)).2.1 (by decide)⟩
  · exact ⟨by decide,
      (c5_parent_resize_splits_delta c5state 0 2 ⟨0, 0, 200, 150⟩
        (by decide) (by decide) (by decide)).2.2 (by decide)⟩

/-- Frame size equals bounds size for view v, the invariant the
specification asserts for every view. -/
def SizeSync (s : GeomSt) (v : ℕ) : Prop :=
  (s.frame v).w = (s.bounds v).w ∧ (s.frame v).h = (s.bounds v).h

/-- Concrete hierarchy for the C1 counterexample: parent 0 sized 100 x 100
with a WH-flexible child 1 whose frame and bounds sizes agree. -/
def c1state : GeomSt :=
  { frame := fun i => if i = 0 then ⟨0, 0, 100, 100⟩ else ⟨10, 10, 50, 50⟩,
    bounds := fun i => if i = 0 then ⟨0, 0, 100, 100⟩ else ⟨0, 0, 50, 50⟩,
    flex := fun i =>
      if i = 1 then ⟨false, true, false, false, true, false⟩
      else ⟨false, false, false, false, false, false⟩,
    children := fun i => if i = 0 then [1] else [] }

/-- C1 counterexample: resizing parent 0 from 100 x 100 to 200 x 100 runs
the autoresizing propagation, which widens the WH child's frame to 150 but
leaves the child's bounds width at 50 (the setter is bypassed), so the
frame/bounds size synchronization claim fails after this operation. -/
theorem c1_counterexample :
    SizeSync c1state 1
    ∧ ¬ SizeSync (set_frame c1state 0 ⟨0, 0, 200, 100⟩) 1 := by
  constructor
  · constructor <;> norm_num [c1state]
  · have hf := set_frame_child_frame c1state 0 1 ⟨0, 0, 200, 100⟩
      (by simp [c1state]) (by simp [c1state]) (by norm_num)
    have hb := set_frame_bounds_not_target c1state 0 ⟨0, 0, 200, 100⟩ 1 (by norm_num)
    intro hsync
    have hw := hsync.1
    rw [hf, hb] at hw
    norm_num [c1state, Flex.hCount] at hw

theorem set_frame_preserves_sync (s : GeomSt) (v : ℕ) (r : Rect)
    (hsync : SizeSync s v) (hself : v ∉ s.children v) :
    SizeSync (set_frame s v r) v := by
  simp only [SizeSync, set_frame]
  by_cases hch : r.w ≠ (s.frame v).w ∨ r.h ≠ (s.frame v).h
  · rw [if_pos hch]
    simp only [_apply_autoresizing]
    by_cases h0 : (Function.update s.bounds v
        ⟨(s.bounds v).x, (s.bounds v).y, r.w, r.h⟩ v).w - (s.frame v).w = 0 ∧
        (Function.update s.bounds v
        ⟨(s.bounds v).x, (s.bounds v).y, r.w, r.h⟩ v).h - (s.frame v).h = 0
    · rw [if_pos h0]
      dsimp only
      rw [Function.update_same, Function.update_same]
      exact ⟨rfl, rfl⟩
    · rw [if_neg h0]
      rw [(autoresize_fold_fixed _ _ _ _).1]
      rw [autoresize_fold_frame_not_mem _ _ _ _ v hself]
      dsimp only
      rw [Function.update_same, Function.update_same]
      exact ⟨rfl, rfl⟩
  · rw [if_neg hch]
    push_neg at hch
    dsimp only
    rw [Function.update_same, hch.1, hch.2]
    exact hsync

theorem set_bounds_preserves_sync (s : GeomSt) (v : ℕ) (r : Rect)
    (hsync : SizeSync s v) (hself : v ∉ s.children v) :
    SizeSync (set_bounds s v r) v := by
  simp only [SizeSync, set_bounds]
  by_cases hch : r.w ≠ (s.bounds v).w ∨ r.h ≠ (s.bounds v).h
  · rw [if_pos hch]
    simp only [_apply_autoresizing]
    by_cases h0 : (Function.update s.bounds v r v).w - (s.bounds v).w = 0 ∧
        (Function.update s.bounds v r v).h - (s.bounds v).h = 0
    · rw [if_pos h0]
      dsimp only
      rw [Function.update_same, Function.update_same]
      exact ⟨rfl, rfl⟩
    · rw [if_neg h0]
      rw [(autoresize_fold_fixed _ _ _ _).1]
      rw [autoresize_fold_frame_not_mem _ _ _ _ v hself]
      dsimp only
      rw [Function.update_same, Function.update_same]
      exact ⟨rfl, rfl⟩
  · rw [if_neg hch]
    push_neg at hch
    dsimp only
    rw [Function.update_same, hch.1, hch.2]
    exact hsync

/-- C1 (amended): the frame/bounds size synchronization invariant holds
for the view a setter targets — the frame setter, the bounds setter and
the x/y/width/height/center shortcuts all leave that view's frame size
equal to its bounds size — but NOT for its flexed children: the
autoresizing propagation writes a child's frame directly and leaves the
child's bounds size unchanged (see the counterexample). -/
theorem c1_setters_keep_target_sizes_synced (s : GeomSt) (v : ℕ) (r : Rect)
    (val cx cy : ℚ) (hsync : SizeSync s v) (hself : v ∉ s.children v) :
    SizeSync (set_frame s v r) v
    ∧ SizeSync (set_bounds s v r) v
    ∧ SizeSync (set_x s v val) v
    ∧ SizeSync (set_y s v val) v
    ∧ SizeSync (set_width s v val) v
    ∧ SizeSync (set_height s v val) v
    ∧ SizeSync (set_center s v cx cy) v :=
  ⟨set_frame_preserves_sync s v r hsync hself,
   set_bounds_preserves_sync s v r hsync hself,
   set_frame_preserves_sync s v _ hsync hself,
   set_frame_preserves_sync s v _ hsync hself,
   set_frame_preserves_sync s v _ hsync hself,
   set_frame_preserves_sync s v _ hsync hself,
   set_frame_preserves_sync s v _ hsync hself⟩

/-- C1 witness: the amended synchronization theorem applied to the
concrete hierarchy at target view 0 with a new frame 5 x 7 at (1, 2). -/
theorem c1_witness :
    SizeSync (set_frame c1state 0 ⟨1, 2, 5, 7⟩) 0
    ∧ SizeSync (set_bounds c1state 0 ⟨1, 2, 5, 7⟩) 0
    ∧ SizeSync (set_x c1state 0 3) 0
    ∧ SizeSync (set_y c1state 0 3) 0
    ∧ SizeSync (set_width c1state 0 3) 0
    ∧ SizeSync (set_height c1state 0 3) 0
    ∧ SizeSync (set_center c1state 0 3 4) 0 :=
  c1_setters_keep_target_sizes_synced c1state 0 ⟨1, 2, 5, 7⟩ 3 3 4
    (by constructor <;> norm_num [c1state]) (by simp [c1state])

/-! ## Touch dispatch: find_view_at and _touch_up

Mirrors find_view_at and BaseRuntime._touch_up in
src/pytoui/_base_runtime.py lines 50-62 and 149-156. A view tree is a
snapshot of the object graph; Python object identity is the vid field.
find_view_at computes each view's screen origin via _screen_origin
(src/pytoui/ui/_draw.py lines 918-930), which accumulates
frame.xy - bounds.xy over the ancestor chain; here the accumulated
ancestor contribution is passed down as (accx, accy), so a node's screen
origin is (accx + frame.x, accy + frame.y). The Touch record construction
(local-coordinate conversion, timestamp) is not needed by the claim; the
dispatch result is (target vid, phase string). -/

/-- Snapshot of a view subtree: id, hidden and touch_enabled flags, frame
and bounds, ordered children. -/
inductive VTree where
  | node (vid : ℕ) (hidden te : Bool) (frame bounds : Rect)
      (children : List VTree)

/-- The view's identity. -/
def VTree.vid : VTree → ℕ
  | .node i _ _ _ _ _ => i

/-- The view's touch_enabled flag. -/
def VTree.touch_enabled : VTree → Bool
  | .node _ _ te _ _ _ => te

/-- The loop over reversed(view.subviews): return the first recursive
result that is a touch-enabled view. -/
def pickTarget : List (Option VTree) → Option VTree
  | [] => none
  | r :: rest =>
      match r with
      | some t => if t.touch_enabled then some t else pickTarget rest
      | none => pickTarget rest

/-- find_view_at: None for a hidden view or a miss; otherwise the topmost
touch-enabled hit among the children (later siblings first), else the view
itself when touch-enabled. -/
def find_view_at (t : VTree) (accx accy x y : ℚ) : Option VTree :=
  match t with
  | .node vid hidden te f b cs =>
    if hidden then none
    else if accx + f.x ≤ x ∧ x < accx + f.x + f.w
        ∧ accy + f.y ≤ y ∧ y < accy + f.y + f.h then
      match pickTarget ((cs.attach.map (fun c =>
          find_view_at c.1 (accx + f.x - b.x) (accy + f.y - b.y) x y)).reverse) with
      | some target => some target
      | none => if te then some (VTree.node vid hidden te f b cs) else none
    else none
termination_by sizeOf t
decreasing_by
  have h1 := List.sizeOf_lt_of_mem c.2
  simp only [VTree.node.sizeOf_spec]
  omega

/-- Per-window touch state: touch id to tracked view id, touch id to last
screen position (id -1 is the mouse pointer). -/
structure TouchSt where
  tracked : ℤ → Option ℕ
  last_pos : ℤ → Option (ℚ × ℚ)

/-- BaseRuntime._touch_up: pop the id from both maps; when a view was
tracked, re-hit-test at the release point and deliver touch_ended with
phase ended when the hit is the tracked view itself, else cancelled. -/
def _touch_up (root : VTree) (st : TouchSt) (x y : ℚ) (tid : ℤ) :
    TouchSt × Option (ℕ × String) :=
  let st1 : TouchSt :=
    { tracked := Function.update st.tracked tid none,
      last_pos := Function.update st.last_pos tid none }
  match st.tracked tid with
  | none => (st1, none)
  | some tv =>
      let current := find_view_at root 0 0 x y
      let phase := if current.map VTree.vid = some tv then "ended" else "cancelled"
      (st1, some (tv, phase))

/-- C3: _touch_up always untracks the id (both maps); when the id was
tracked to view T it delivers touch_ended to T, with phase ended exactly
when the re-hit-test at the release point returns T itself and cancelled
otherwise; when the id was untracked nothing is delivered. -/
theorem c3_touch_up_dispatch (root : VTree) (st : TouchSt) (x y : ℚ)
    (tid : ℤ) :
    ((_touch_up root st x y tid).1.tracked tid = none
      ∧ (_touch_up root st x y tid).1.last_pos tid = none)
    ∧ (∀ T, st.tracked tid = some T →
        (_touch_up root st x y tid).2 =
          some (T, if (find_view_at root 0 0 x y).map VTree.vid = some T
                   then "ended" else "cancelled"))
    ∧ (st.tracked tid = none → (_touch_up root st x y tid).2 = none) := by
  refine ⟨⟨?_, ?_⟩, ?_, ?_⟩
  · unfold _touch_up
    cases st.tracked tid <;>
      simp [Function.update_same]
  · unfold _touch_up
    cases st.tracked tid <;>
      simp [Function.update_same]
  · intro T hT
    unfold _touch_up
    rw [hT]
  · intro hT
    unfold _touch_up
    rw [hT]

/-- Concrete scene for the touch witness: root 0 covering 100 x 100 with a
touch-enabled child 1 at (10, 10) sized 30 x 30; the mouse id -1 tracks
child 1. -/
def c3root : VTree :=
  .node 0 false true ⟨0, 0, 100, 100⟩ ⟨0, 0, 100, 100⟩
    [.node 1 false true ⟨10, 10, 30, 30⟩ ⟨0, 0, 30, 30⟩ []]

/-- Touch state for the witness. -/
def c3st : TouchSt :=
  { tracked := fun tid => if tid = -1 then some 1 else none,
    last_pos := fun tid => if tid = -1 then some (15, 15) else none }

/-- C3 witness: releasing the mouse at (15, 15), still inside child 1,
untracks the id and delivers touch_ended with phase ended to view 1. -/
theorem c3_witness :
    (_touch_up c3root c3st 15 15 (-1)).1.tracked (-1) = none
    ∧ (_touch_up c3root c3st 15 15 (-1)).2 =
        some (1, if (find_view_at c3root 0 0 15 15).map VTree.vid = some 1
                 then "ended" else "cancelled")
    ∧ find_view_at c3root 0 0 15 15 =
        some (.node 1 false true ⟨10, 10, 30, 30⟩ ⟨0, 0, 30, 30⟩ []) :=
  ⟨(c3_touch_up_dispatch c3root c3st 15 15 (-1)).1.1,
   (c3_touch_up_dispatch c3root c3st 15 15 (-1)).2.1 1 rfl,
   by
    rw [c3root, find_view_at, if_neg (by norm_num),
      if_pos (by norm_num)]
    simp only [List.attach_cons, List.attach_nil, List.map_nil, List.map_cons,
      List.reverse_cons, List.reverse_nil, List.nil_append]
    rw [find_view_at, if_neg (by norm_num), if_pos (by norm_num)]
    simp [pickTarget, VTree.touch_enabled]⟩

/-! ## First responder

Mirrors BaseRuntime._set_first_responder (src/pytoui/_base_runtime.py
lines 100-108), the _root_to_runtime registry keyed by the root view
(lines 30-37) and View.become_first_responder (src/pytoui/ui/_view.py
lines 597-611). Hook invocations (_did_resign_first_responder /
_did_become_first_responder) are returned as an ordered event list. The
superview walk of _get_runtime_for_view is unrolled with a fuel bound; a
hypothesis that the reached node has no parent pins it to the true root. -/

/-- A hook invocation on a view. -/
inductive Hook where
  | resign (v : ℕ)
  | acquire (v : ℕ)
deriving DecidableEq, Repr

/-- Per-window runtime state relevant to focus. -/
structure FRState where
  first_responder : Option ℕ
deriving DecidableEq, Repr

/-- BaseRuntime._set_first_responder: no-op when the view already holds
focus; otherwise the old holder's resign hook fires, the field is
reassigned, and the new holder's acquire hook fires, in that order. -/
def _set_first_responder (s : FRState) (v : Option ℕ) : FRState × List Hook :=
  if s.first_responder = v then (s, [])
  else
    ({ first_responder := v },
      (match s.first_responder with
       | some old => [Hook.resign old]
       | none => []) ++
      (match v with
       | some n => [Hook.acquire n]
       | none => []))

/-- Global registry state: superview pointers and the root-id-to-runtime
map _root_to_runtime. -/
structure Registry where
  parent : ℕ → Option ℕ
  runtimes : ℕ → Option FRState

/-- The superview walk of _get_runtime_for_view, unrolled fuel steps. -/
def rootOf (p : ℕ → Option ℕ) : ℕ → ℕ → ℕ
  | 0, v => v
  | fuel + 1, v =>
      match p v with
      | none => v
      | some q => rootOf p fuel q

/-- Store the runtime registered under root id r. -/
def setRuntime (g : Registry) (r : ℕ) (rt : FRState) : Registry :=
  { g with runtimes := Function.update g.runtimes r (some rt) }

/-- View.become_first_responder: walk to the root, look up the owning
runtime; return False (no hooks) when none is registered, otherwise
delegate to _set_first_responder and return True. -/
def become_first_responder (g : Registry) (fuel : ℕ) (v : ℕ) :
    Registry × Bool × List Hook :=
  let r := rootOf g.parent fuel v
  match g.runtimes r with
  | none => (g, false, [])
  | some rt =>
      let res := _set_first_responder rt (some v)
      (setRuntime g r res.1, true, res.2)

theorem set_first_responder_handoff (rt : FRState) (v A : ℕ)
    (hA : rt.first_responder = some A) (hAv : A ≠ v) :
    _set_first_responder rt (some v) =
      (⟨some v⟩, [Hook.resign A, Hook.acquire v]) := by
  unfold _set_first_responder
  rw [hA, if_neg (fun h0 => hAv (Option.some.inj h0))]
  rfl

theorem set_first_responder_same (rt : FRState) (v : ℕ)
    (hv : rt.first_responder = some v) :
    _set_first_responder rt (some v) = (rt, []) := by
  unfold _set_first_responder
  rw [if_pos hv]

/-- C9: with rt the runtime registered for the root of view v, a focus
request for v resigns the old holder A before v's acquire hook fires and
leaves exactly v focused; a request for the current holder fires no hooks
and changes nothing; a request for a view whose root has no registered
runtime returns False and fires no hooks. -/
theorem c9_first_responder (g : Registry) (fuel v : ℕ)
    (hroot : g.parent (rootOf g.parent fuel v) = none) :
    (∀ rt A, g.runtimes (rootOf g.parent fuel v) = some rt →
        rt.first_responder = some A → A ≠ v →
        become_first_responder g fuel v =
          (setRuntime g (rootOf g.parent fuel v) ⟨some v⟩,
            true, [Hook.resign A, Hook.acquire v]))
    ∧ (∀ rt, g.runtimes (rootOf g.parent fuel v) = some rt →
        rt.first_responder = some v →
        become_first_responder g fuel v =
          (setRuntime g (rootOf g.parent fuel v) rt, true, []))
    ∧ (g.runtimes (rootOf g.parent fuel v) = none →
        become_first_responder g fuel v = (g, false, [])) := by
  refine ⟨?_, ?_, ?_⟩
  · intro rt A hrt hA hAv
    simp only [become_first_responder]
    rw [hrt]
    dsimp only
    rw [set_first_responder_handoff rt v A hA hAv]
  · intro rt hrt hv
    simp only [become_first_responder]
    rw [hrt]
    dsimp only
    rw [set_first_responder_same rt v hv]
  · intro hrt
    simp only [become_first_responder]
    rw [hrt]

/-- Registry for the first-responder witness: chain 2 to 1 to root 0, view
7 currently focused in the runtime registered for root 0. -/
def c9reg : Registry :=
  { parent := fun i => if i = 2 then some 1 else if i = 1 then some 0 else none,
    runtimes := fun i => if i = 0 then some ⟨some 7⟩ else none }

/-- C9 witness: the theorem applied to the concrete registry; requesting
focus for view 2 resigns 7 then acquires 2; requesting focus for a view
under the unregistered root 5 is rejected. -/
theorem c9_witness :
    (become_first_responder c9reg 3 2 =
      (setRuntime c9reg 0 ⟨some 2⟩, true, [Hook.resign 7, Hook.acquire 2]))
    ∧ become_first_responder { c9reg with runtimes := fun _ => none } 3 2 =
        ({ c9reg with runtimes := fun _ => none }, false, []) :=
  ⟨(c9_first_responder c9reg 3 2 rfl).1 ⟨some 7⟩ 7 rfl rfl (by decide),
   (c9_first_responder { c9reg with runtimes := fun _ => none } 3 2 rfl).2.2 rfl⟩

/-! ## Animation engine

Mirrors the attribute-animation engine of src/pytoui/ui/_draw.py:
_ease_in_out (line 1399), _lerp (1404), class _Anim (1429), _record
(1477), _tick (1495) and animate (1505). Attribute values are an
inductive covering the Python type dispatch of _lerp: numbers, tuples,
Rect, Point, Size and anything else (opaque). The per-thread context
(recording flag, records list, active animations) plus the per-view
attribute store and the per-batch shared completion cells (remaining
count, number of user-completion invocations) form one state record. A
batch's shared reference-counted completion closure is modelled by a
fresh batch id allocated by animate; an _Anim with cb = some b decrements
remaining b when it finishes and the user completion fires (fired b
increments) when the count reaches zero, exactly like _completion_once. -/

/-- A Python value as dispatched by _lerp. -/
inductive Val where
  | num (q : ℚ)
  | tup (qs : List ℚ)
  | rect (r : Rect)
  | point (x y : ℚ)
  | size (x y : ℚ)
  | other (tag : ℕ)
deriving DecidableEq, Repr

/-- Shape compatibility of two values: Python's zip truncates to the
shorter tuple, so tuple interpolation reproduces the endpoints only when
the recorded start and end tuples have equal length (the real setters only
record 4-tuples, so this always holds for recorded writes). -/
def Val.compatB : Val → Val → Bool
  | .tup l1, .tup l2 => l1.length == l2.length
  | _, _ => true

/-- Smooth-step easing 3t^2 - 2t^3 as written: t * t * (3 - 2 * t). -/
def _ease_in_out (t : ℚ) : ℚ := t * t * (3 - 2 * t)

/-- _lerp: scalars linearly, tuples component-wise over zip, Rect and
Point/Size field-wise (only for matching types), any other combination
steps to the end value at t >= 1. -/
def _lerp : Val → Val → ℚ → Val
  | .num a, .num b, t => .num (a + (b - a) * t)
  | .tup l1, .tup l2, t => .tup (List.zipWith (fun ai bi => ai + (bi - ai) * t) l1 l2)
  | .rect a, .rect b, t =>
      .rect ⟨a.x + (b.x - a.x) * t, a.y + (b.y - a.y) * t,
             a.w + (b.w - a.w) * t, a.h + (b.h - a.h) * t⟩
  | .point ax ay, .point bx bY, t => .point (ax + (bx - ax) * t) (ay + (bY - ay) * t)
  | .size ax ay, .size bx bY, t => .size (ax + (bx - ax) * t) (ay + (bY - ay) * t)
  | a, b, t => if t ≥ 1 then b else a

/-- One interpolation task (class _Anim): target view and attribute,
recorded start and end values, absolute start time, duration, optional
batch id of the shared completion closure, done flag. -/
structure Anim where
  view : ℕ
  attr : String
  startVal : Val
  endVal : Val
  start_t : ℚ
  duration : ℚ
  cb : Option ℕ
  done : Bool
deriving DecidableEq, Repr

/-- The value _Anim.tick writes at time now, with the resulting done flag;
none while the delay has not expired. Mirrors tick lines 1453-1464. -/
def Anim.sample (a : Anim) (now : ℚ) : Option (Val × Bool) :=
  let elapsed := now - a.start_t
  if elapsed < 0 then none
  else
    let t0 : ℚ := if a.duration > 0 then elapsed / a.duration else 1
    let done := if t0 ≥ 1 then true else a.done
    let t := if t0 ≥ 1 then 1 else t0
    some (_lerp a.startVal a.endVal (_ease_in_out t), done)

/-- One record captured by _record: (view, attr, start, end). -/
structure RecordEntry where
  view : ℕ
  attr : String
  startVal : Val
  endVal : Val
deriving DecidableEq, Repr

/-- The combined animation state: the per-view attribute store, the
per-thread _AnimatingContext (recording, records, active), the next fresh
batch id, and the per-batch shared cells remaining / fired. -/
structure UIState where
  store : ℕ → String → Val
  recording : Bool
  records : List RecordEntry
  active : List Anim
  nextBatch : ℕ
  remaining : ℕ → ℕ
  fired : ℕ → ℕ

/-- An animated property setter: it first calls _record(view, attr,
current, value); while recording the write is captured instead of applied,
otherwise the attribute is stored. -/
def setattr_v (s : UIState) (v : ℕ) (attr : String) (val : Val) : UIState :=
  if s.recording then
    { s with records := s.records ++ [⟨v, attr, s.store v attr, val⟩] }
  else
    { s with store := fun u a => if u = v ∧ a = attr then val else s.store u a }

/-- One step of an animation body: an intercepted property write, or a
point where the body raises. -/
inductive BodyStep where
  | write (view : ℕ) (attr : String) (val : Val)
  | raiseErr
deriving DecidableEq, Repr

/-- Run the animation body: perform each write through the setter until a
raise; the flag reports whether the body raised. -/
def runBody : List BodyStep → UIState → UIState × Bool
  | [], s => (s, false)
  | .write v a val :: rest, s => runBody rest (setattr_v s v a val)
  | .raiseErr :: _, s => (s, true)

/-- The shared _completion_once closure of batch b: decrement the
reference count; when it reaches zero the user completion fires. -/
def decrementBatch (s : UIState) (b : ℕ) : UIState :=
  let r := s.remaining b - 1
  { s with
    remaining := Function.update s.remaining b r,
    fired := if r = 0 then Function.update s.fired b (s.fired b + 1) else s.fired }

/-- _Anim.tick at time now on a single task: write the sampled value
through the real setter, then when finished invoke the attached shared
completion; returns the surviving task, if any. -/
def tickOne (now : ℚ) (s : UIState) (a : Anim) : UIState × Option Anim :=
  match a.sample now with
  | none => (s, some a)
  | some (val, done) =>
      let s1 := setattr_v s a.view a.attr val
      if done then
        (match a.cb with
         | some b => decrementBatch s1 b
         | none => s1, none)
      else (s1, some { a with done := done })

/-- One step of the list comprehension in _tick: advance the next task,
keep it when unfinished. -/
def tickFoldStep (now : ℚ) (p : UIState × List Anim) (a : Anim) :
    UIState × List Anim :=
  let q := tickOne now p.1 a
  (q.1, match q.2 with
        | some a2 => p.2 ++ [a2]
        | none => p.2)

/-- _tick: advance every active animation once, keeping the unfinished
ones in order; early return when no animation is active. -/
def _tick (now : ℚ) (s : UIState) : UIState :=
  if s.active.isEmpty then s
  else
    let res := s.active.foldl (tickFoldStep now) (s, [])
    { res.1 with active := res.2 }

/-- Result of one animate call: whether the body raised, whether the user
completion fired synchronously before returning, and the batch of
interpolation tasks scheduled. -/
structure AnimResult where
  raised : Bool
  completedSync : Bool
  scheduled : List Anim
deriving Repr

/-- animate(animation, duration, delay, completion): record the writes of
the body (resetting the recording flag even on a raise, which propagates);
with duration <= 0 apply every end value through the real setter and fire
completion synchronously; with no records fire completion synchronously;
otherwise allocate the shared completion cell and schedule one _Anim per
record starting at now + delay. -/
def animate (body : List BodyStep) (duration delay : ℚ) (hasCompletion : Bool)
    (now : ℚ) (s : UIState) : UIState × AnimResult :=
  let s1 : UIState := { s with recording := true, records := [] }
  let br := runBody body s1
  let s2 : UIState := { br.1 with recording := false }
  if br.2 then (s2, ⟨true, false, []⟩)
  else
    let records := s2.records
    let s3 : UIState := { s2 with records := [] }
    if duration ≤ 0 then
      let s4 := records.foldl (fun st r => setattr_v st r.view r.attr r.endVal) s3
      (s4, ⟨false, hasCompletion, []⟩)
    else if records.isEmpty then
      (s3, ⟨false, hasCompletion, []⟩)
    else
      let start_t := now + delay
      let batch := records.map (fun r =>
        Anim.mk r.view r.attr r.startVal r.endVal start_t duration
          (if hasCompletion then some s3.nextBatch else none) false)
      ({ s3 with
          active := s3.active ++ batch,
          nextBatch := s3.nextBatch + 1,
          remaining := Function.update s3.remaining s3.nextBatch records.length,
          fired := Function.update s3.fired s3.nextBatch 0 },
        ⟨false, false, batch⟩)

/-- A runtime-level operation on the animation state. -/
inductive UIOp where
  | set (view : ℕ) (attr : String) (val : Val)
  | tick (now : ℚ)
  | anim (body : List BodyStep) (duration delay : ℚ) (hasCompletion : Bool)
      (now : ℚ)

/-- Execute one operation (animate discards its result). -/
def stepOp (s : UIState) : UIOp → UIState
  | .set v a val => setattr_v s v a val
  | .tick now => _tick now s
  | .anim body d dl hc now => (animate body d dl hc now s).1

/-- Execute a sequence of operations. -/
def runOps (s : UIState) (ops : List UIOp) : UIState :=
  ops.foldl stepOp s

/-- Run _tick once per frame at the given times. -/
def applyTicks (times : List ℚ) (s : UIState) : UIState :=
  times.foldl (fun st tm => _tick tm st) s

theorem setattr_v_of_recording {s : UIState} (h : s.recording = true)
    (v : ℕ) (attr : String) (val : Val) :
    setattr_v s v attr val =
      { s with records := s.records ++ [⟨v, attr, s.store v attr, val⟩] } := by
  unfold setattr_v
  rw [if_pos h]

theorem setattr_v_of_not_recording {s : UIState} (h : s.recording = false)
    (v : ℕ) (attr : String) (val : Val) :
    setattr_v s v attr val =
      { s with store := fun u a => if u = v ∧ a = attr then val else s.store u a } := by
  unfold setattr_v
  rw [if_neg (by rw [h]; exact Bool.false_ne_true)]

theorem setattr_v_frame_fields (s : UIState) (v : ℕ) (attr : String) (val : Val) :
    (setattr_v s v attr val).recording = s.recording
    ∧ (setattr_v s v attr val).active = s.active
    ∧ (setattr_v s v attr val).nextBatch = s.nextBatch
    ∧ (setattr_v s v attr val).remaining = s.remaining
    ∧ (setattr_v s v attr val).fired = s.fired := by
  unfold setattr_v
  split <;> exact ⟨rfl, rfl, rfl, rfl, rfl⟩

theorem runBody_of_recording (body : List BodyStep) :
    ∀ s : UIState, s.recording = true →
      (runBody body s).1.store = s.store
      ∧ (runBody body s).1.recording = true
      ∧ (runBody body s).1.active = s.active
      ∧ (runBody body s).1.nextBatch = s.nextBatch
      ∧ (runBody body s).1.remaining = s.remaining
      ∧ (runBody body s).1.fired = s.fired := by
  induction body with
  | nil =>
      intro s h
      exact ⟨rfl, h, rfl, rfl, rfl, rfl⟩
  | cons st rest ih =>
      intro s h
      cases st with
      | write v a val =>
          simp only [runBody]
          rw [setattr_v_of_recording h]
          exact ih _ h
      | raiseErr =>
          exact ⟨rfl, h, rfl, rfl, rfl, rfl⟩

/-- The net effect of applying the end values of a record list through the
real setter, left to right. -/
def applyEnds (records : List RecordEntry) (store : ℕ → String → Val) :
    ℕ → String → Val :=
  records.foldl
    (fun f r => fun u a => if u = r.view ∧ a = r.attr then r.endVal else f u a)
    store

theorem apply_records_fold (records : List RecordEntry) :
    ∀ s : UIState, s.recording = false →
      let s4 := records.foldl (fun st r => setattr_v st r.view r.attr r.endVal) s
      s4.store = applyEnds records s.store
      ∧ s4.recording = false
      ∧ s4.active = s.active
      ∧ s4.records = s.records
      ∧ s4.nextBatch = s.nextBatch
      ∧ s4.remaining = s.remaining
      ∧ s4.fired = s.fired := by
  induction records with
  | nil =>
      intro s h
      exact ⟨rfl, h, rfl, rfl, rfl, rfl, rfl⟩
  | cons r rest ih =>
      intro s h
      simp only [List.foldl_cons, applyEnds]
      rw [setattr_v_of_not_recording h]
      exact ih _ h

/-- C8: animate with duration <= 0 applies every recorded end value
through the real setter (the final store is the left-to-right overwrite of
the captured records), fires completion synchronously before returning,
and schedules no interpolation task. -/
theorem c8_zero_duration_applies_synchronously (body : List BodyStep)
    (duration delay : ℚ) (hc : Bool) (now : ℚ) (s : UIState)
    (hnoraise : (runBody body { s with recording := true, records := [] }).2 = false)
    (hd : duration ≤ 0) :
    (animate body duration delay hc now s).2.raised = false
    ∧ (animate body duration delay hc now s).2.completedSync = hc
    ∧ (animate body duration delay hc now s).2.scheduled = []
    ∧ (animate body duration delay hc now s).1.active = s.active
    ∧ (animate body duration delay hc now s).1.store =
        applyEnds (runBody body { s with recording := true, records := [] }).1.records
          s.store
    ∧ (animate body duration delay hc now s).1.recording = false := by
  obtain ⟨hst, hrec, hact, -, -, -⟩ :=
    runBody_of_recording body { s with recording := true, records := [] } rfl
  simp only [animate]
  rw [hnoraise]
  simp only [Bool.false_eq_true, if_false]
  rw [if_pos hd]
  obtain ⟨h1, h2, h3, -, -, -, -⟩ :=
    apply_records_fold
      (runBody body { s with recording := true, records := [] }).1.records
      { (runBody body { s with recording := true, records := [] }).1 with
        recording := false, records := [] }
      rfl
  refine ⟨rfl, rfl, rfl, ?_, ?_, h2⟩
  · rw [h3]
    exact hact
  · rw [h1]
    dsimp only
    rw [hst]

/-- The detached initial state: nothing recorded, nothing active. -/
def initUI : UIState :=
  { store := fun _ _ => Val.num 0, recording := false, records := [],
    active := [], nextBatch := 0, remaining := fun _ => 0, fired := fun _ => 0 }

/-- C8 witness: a body writing alpha and x on view 5, animated with
duration 0; both end values are applied and completion fires
synchronously. -/
theorem c8_witness :
    (animate [BodyStep.write 5 "alpha" (Val.num 0), BodyStep.write 5 "x" (Val.num 100)]
        0 0 true 3 initUI).2.raised = false
    ∧ (animate [BodyStep.write 5 "alpha" (Val.num 0), BodyStep.write 5 "x" (Val.num 100)]
        0 0 true 3 initUI).2.completedSync = true
    ∧ (animate [BodyStep.write 5 "alpha" (Val.num 0), BodyStep.write 5 "x" (Val.num 100)]
        0 0 true 3 initUI).2.scheduled = []
    ∧ (animate [BodyStep.write 5 "alpha" (Val.num 0), BodyStep.write 5 "x" (Val.num 100)]
        0 0 true 3 initUI).1.active = initUI.active
    ∧ (animate [BodyStep.write 5 "alpha" (Val.num 0), BodyStep.write 5 "x" (Val.num 100)]
        0 0 true 3 initUI).1.store =
        applyEnds (runBody [BodyStep.write 5 "alpha" (Val.num 0),
            BodyStep.write 5 "x" (Val.num 100)]
          { initUI with recording := true, records := [] }).1.records initUI.store
    ∧ (animate [BodyStep.write 5 "alpha" (Val.num 0), BodyStep.write 5 "x" (Val.num 100)]
        0 0 true 3 initUI).1.recording = false :=
  c8_zero_duration_applies_synchronously
    [BodyStep.write 5 "alpha" (Val.num 0), BodyStep.write 5 "x" (Val.num 100)]
    0 0 true 3 initUI rfl le_rfl

/-- Two animation states that agree on everything except the captured
records list: same attribute values, same recording flag, same scheduled
animations and same completion cells. -/
def EqvExceptRecords (s t : UIState) : Prop :=
  s.store = t.store ∧ s.recording = t.recording ∧ s.active = t.active
  ∧ s.nextBatch = t.nextBatch ∧ s.remaining = t.remaining ∧ s.fired = t.fired

theorem eqvER_refl (s : UIState) : EqvExceptRecords s s :=
  ⟨rfl, rfl, rfl, rfl, rfl, rfl⟩

theorem setattr_v_eqvER {p q : UIState} (h : EqvExceptRecords p q)
    (v : ℕ) (attr : String) (val : Val) :
    EqvExceptRecords (setattr_v p v attr val) (setattr_v q v attr val) := by
  obtain ⟨h1, h2, h3, h4, h5, h6⟩ := h
  unfold setattr_v
  rw [h2]
  by_cases hq : q.recording = true
  · rw [if_pos hq, if_pos hq]
    exact ⟨h1, rfl, h3, h4, h5, h6⟩
  · rw [if_neg hq, if_neg hq]
    refine ⟨?_, rfl, h3, h4, h5, h6⟩
    dsimp only
    rw [h1]

theorem decrementBatch_eqvER {p q : UIState} (h : EqvExceptRecords p q)
    (b : ℕ) : EqvExceptRecords (decrementBatch p b) (decrementBatch q b) := by
  obtain ⟨h1, h2, h3, h4, h5, h6⟩ := h
  unfold decrementBatch
  rw [h5, h6]
  exact ⟨h1, h2, h3, h4, rfl, rfl⟩

theorem tickOne_eqvER (now : ℚ) (a : Anim) {p q : UIState}
    (h : EqvExceptRecords p q) :
    EqvExceptRecords (tickOne now p a).1 (tickOne now q a).1
    ∧ (tickOne now p a).2 = (tickOne now q a).2 := by
  unfold tickOne
  cases a.sample now with
  | none => exact ⟨h, rfl⟩
  | some pr =>
      obtain ⟨val, done⟩ := pr
      dsimp only
      cases done with
      | false =>
          simp only [Bool.false_eq_true, if_false]
          exact ⟨setattr_v_eqvER h _ _ _, trivial⟩
      | true =>
          simp only [if_true]
          cases a.cb with
          | none => exact ⟨setattr_v_eqvER h _ _ _, trivial⟩
          | some b =>
              exact ⟨decrementBatch_eqvER (setattr_v_eqvER h _ _ _) b, trivial⟩

theorem tickFold_eqvER (now : ℚ) (acts : List Anim) :
    ∀ (p q : UIState) (acc : List Anim), EqvExceptRecords p q →
      EqvExceptRecords (acts.foldl (tickFoldStep now) (p, acc)).1
          (acts.foldl (tickFoldStep now) (q, acc)).1
      ∧ (acts.foldl (tickFoldStep now) (p, acc)).2 =
          (acts.foldl (tickFoldStep now) (q, acc)).2 := by
  induction acts with
  | nil =>
      intro p q acc h
      exact ⟨h, rfl⟩
  | cons a rest ih =>
      intro p q acc h
      simp only [List.foldl_cons, tickFoldStep]
      obtain ⟨he, hk⟩ := tickOne_eqvER now a h
      rw [hk]
      exact ih _ _ _ he

theorem tick_eqvER (now : ℚ) {p q : UIState} (h : EqvExceptRecords p q) :
    EqvExceptRecords (_tick now p) (_tick now q) := by
  have hact : p.active = q.active := h.2.2.1
  unfold _tick
  rw [hact]
  by_cases hemp : q.active.isEmpty
  · rw [if_pos hemp, if_pos hemp]
    exact h
  · rw [if_neg hemp, if_neg hemp]
    obtain ⟨he, hk⟩ := tickFold_eqvER now q.active p q [] h
    obtain ⟨e1, e2, e3, e4, e5, e6⟩ := he
    exact ⟨e1, e2, by dsimp only; rw [hk], e4, e5, e6⟩

theorem stepOp_eqvER (op : UIOp) {p q : UIState}
    (h : EqvExceptRecords p q) :
    EqvExceptRecords (stepOp p op) (stepOp q op) := by
  cases op with
  | set v a val => exact setattr_v_eqvER h v a val
  | tick now => exact tick_eqvER now h
  | anim body d dl hc now =>
      obtain ⟨h1, h2, h3, h4, h5, h6⟩ := h
      have heq : ({ p with recording := true, records := [] } : UIState) =
          { q with recording := true, records := [] } := by
        cases p
        cases q
        dsimp only at h1 h3 h4 h5 h6 ⊢
        rw [h1, h3, h4, h5, h6]
      simp only [stepOp, animate]
      rw [heq]
      exact eqvER_refl _

theorem runOps_eqvER (ops : List UIOp) :
    ∀ {p q : UIState}, EqvExceptRecords p q →
      EqvExceptRecords (runOps p ops) (runOps q ops) := by
  induction ops with
  | nil =>
      intro p q h
      exact h
  | cons op rest ih =>
      intro p q h
      exact ih (stepOp_eqvER op h)

theorem animate_raise_eq (body : List BodyStep) (duration delay : ℚ)
    (hc : Bool) (now : ℚ) (s : UIState)
    (hraise : (runBody body { s with recording := true, records := [] }).2 = true) :
    animate body duration delay hc now s =
      ({ (runBody body { s with recording := true, records := [] }).1 with
          recording := false }, ⟨true, false, []⟩) := by
  simp only [animate]
  rw [hraise]
  rw [if_pos rfl]

/-- C10: when the body passed to animate raises, the exception propagates
(raised = true, completion does not fire, nothing is scheduled), the
recording flag is nevertheless reset to False, the store and the active
list are exactly as before the call, and the records captured before the
exception never influence anything observable: every subsequent operation
sequence behaves identically to one started with those leftovers cleared. -/
theorem c10_animate_exception_safe (body : List BodyStep)
    (duration delay : ℚ) (hc : Bool) (now : ℚ) (s : UIState)
    (hraise : (runBody body { s with recording := true, records := [] }).2 = true) :
    (animate body duration delay hc now s).2.raised = true
    ∧ (animate body duration delay hc now s).2.completedSync = false
    ∧ (animate body duration delay hc now s).2.scheduled = []
    ∧ (animate body duration delay hc now s).1.recording = false
    ∧ (animate body duration delay hc now s).1.store = s.store
    ∧ (animate body duration delay hc now s).1.active = s.active
    ∧ (animate body duration delay hc now s).1.remaining = s.remaining
    ∧ (animate body duration delay hc now s).1.fired = s.fired
    ∧ (∀ ops : List UIOp,
        EqvExceptRecords
          (runOps (animate body duration delay hc now s).1 ops)
          (runOps { (animate body duration delay hc now s).1 with records := [] } ops)) := by
  obtain ⟨hst, -, hact, hnb, hrem, hfired⟩ :=
    runBody_of_recording body { s with recording := true, records := [] } rfl
  rw [animate_raise_eq body duration delay hc now s hraise]
  refine ⟨rfl, rfl, rfl, rfl, hst, hact, hrem, hfired, ?_⟩
  intro ops
  exact runOps_eqvER ops ⟨rfl, rfl, rfl, rfl, rfl, rfl⟩

/-- C10 witness: a body that writes alpha on view 5 and then raises; the
theorem applied at this concrete input. -/
theorem c10_witness :
    (animate [BodyStep.write 5 "alpha" (Val.num 1), BodyStep.raiseErr]
        1 0 true 0 initUI).2.raised = true
    ∧ (animate [BodyStep.write 5 "alpha" (Val.num 1), BodyStep.raiseErr]
        1 0 true 0 initUI).2.completedSync = false
    ∧ (animate [BodyStep.write 5 "alpha" (Val.num 1), BodyStep.raiseErr]
        1 0 true 0 initUI).2.scheduled = []
    ∧ (animate [BodyStep.write 5 "alpha" (Val.num 1), BodyStep.raiseErr]
        1 0 true 0 initUI).1.recording = false
    ∧ (animate [BodyStep.write 5 "alpha" (Val.num 1), BodyStep.raiseErr]
        1 0 true 0 initUI).1.store = initUI.store
    ∧ (animate [BodyStep.write 5 "alpha" (Val.num 1), BodyStep.raiseErr]
        1 0 true 0 initUI).1.active = initUI.active
    ∧ (animate [BodyStep.write 5 "alpha" (Val.num 1), BodyStep.raiseErr]
        1 0 true 0 initUI).1.remaining = initUI.remaining
    ∧ (animate [BodyStep.write 5 "alpha" (Val.num 1), BodyStep.raiseErr]
        1 0 true 0 initUI).1.fired = initUI.fired
    ∧ (∀ ops : List UIOp,
        EqvExceptRecords
          (runOps (animate [BodyStep.write 5 "alpha" (Val.num 1), BodyStep.raiseErr]
            1 0 true 0 initUI).1 ops)
          (runOps { (animate [BodyStep.write 5 "alpha" (Val.num 1), BodyStep.raiseErr]
            1 0 true 0 initUI).1 with records := [] } ops)) :=
  c10_animate_exception_safe
    [BodyStep.write 5 "alpha" (Val.num 1), BodyStep.raiseErr] 1 0 true 0 initUI rfl

theorem zipWith_line_zero (l1 l2 : List ℚ) (h : l1.length = l2.length) :
    List.zipWith (fun ai bi => ai + (bi - ai) * 0) l1 l2 = l1 := by
  induction l1 generalizing l2 with
  | nil => rfl
  | cons x xs ih =>
      cases l2 with
      | nil => simp at h
      | cons y ys =>
          rw [List.zipWith_cons_cons]
          congr 1
          · ring
          · exact ih ys (by simpa using h)

theorem zipWith_line_one (l1 l2 : List ℚ) (h : l1.length = l2.length) :
    List.zipWith (fun ai bi => ai + (bi - ai) * 1) l1 l2 = l2 := by
  induction l1 generalizing l2 with
  | nil =>
      cases l2 with
      | nil => rfl
      | cons y ys => simp at h
  | cons x xs ih =>
      cases l2 with
      | nil => simp at h
      | cons y ys =>
          rw [List.zipWith_cons_cons]
          congr 1
          · ring
          · exact ih ys (by simpa using h)

theorem _lerp_zero (a b : Val) (h : Val.compatB a b = true) :
    _lerp a b 0 = a := by
  have h0 : ¬((0 : ℚ) ≥ 1) := by norm_num
  cases a <;> cases b <;>
    simp only [Val.compatB, beq_iff_eq] at h <;>
    simp only [_lerp, if_neg h0]
  case num.num qa qb => congr 1; ring
  case tup.tup l1 l2 => congr 1; exact zipWith_line_zero l1 l2 h
  case rect.rect ra rb => congr 1; obtain ⟨ax, ay, aw, ah⟩ := ra; congr 1 <;> ring
  case point.point ax ay bx bY => congr 1 <;> ring
  case size.size ax ay bx bY => congr 1 <;> ring

theorem _lerp_one (a b : Val) (h : Val.compatB a b = true) :
    _lerp a b 1 = b := by
  have h1 : ((1 : ℚ) ≥ 1) := le_refl 1
  cases a <;> cases b <;>
    simp only [Val.compatB, beq_iff_eq] at h <;>
    simp only [_lerp, if_pos h1]
  case num.num qa qb => congr 1; ring
  case tup.tup l1 l2 => congr 1; exact zipWith_line_one l1 l2 h
  case rect.rect ra rb => congr 1; obtain ⟨bx, bY, bw, bh⟩ := rb; congr 1 <;> ring
  case point.point ax ay bx bY => congr 1 <;> ring
  case size.size ax ay bx bY => congr 1 <;> ring

theorem ease_zero : _ease_in_out 0 = 0 := by
  norm_num [_ease_in_out]

theorem ease_one : _ease_in_out 1 = 1 := by
  norm_num [_ease_in_out]

/-- Sampling a task at its start time (elapsed 0, positive duration)
writes the interpolation at t = 0 and leaves the done flag. -/
theorem sample_at_start (a : Anim) (hd : 0 < a.duration)
    (hcompat : Val.compatB a.startVal a.endVal = true) :
    a.sample a.start_t = some (a.startVal, a.done) := by
  simp only [Anim.sample, sub_self]
  rw [if_neg (by norm_num), if_pos hd, zero_div]
  simp only [if_neg (by norm_num : ¬((0 : ℚ) ≥ 1))]
  rw [ease_zero, _lerp_zero _ _ hcompat]

/-- Sampling a task at or after its end time clamps t to 1 and finishes. -/
theorem sample_done_at_end (a : Anim) (hd : 0 < a.duration) (tm : ℚ)
    (h : a.start_t + a.duration ≤ tm) :
    a.sample tm = some (_lerp a.startVal a.endVal (_ease_in_out 1), true) := by
  simp only [Anim.sample]
  have h0 : ¬(tm - a.start_t < 0) := by
    intro h0
    linarith
  have h1 : (tm - a.start_t) / a.duration ≥ 1 := by
    rw [ge_iff_le, le_div_iff₀ hd]
    linarith
  rw [if_neg h0, if_pos hd]
  simp only [if_pos h1]

/-- Sampling a task at or after its end time writes exactly the recorded
end value. -/
theorem sample_at_end (a : Anim) (hd : 0 < a.duration)
    (hcompat : Val.compatB a.startVal a.endVal = true) (tm : ℚ)
    (h : a.start_t + a.duration ≤ tm) :
    a.sample tm = some (a.endVal, true) := by
  rw [sample_done_at_end a hd tm h, ease_one, _lerp_one _ _ hcompat]

/-- Sampling strictly before the end either waits (delay pending) or
writes without finishing. -/
theorem sample_before_end (a : Anim) (hd : 0 < a.duration) (tm : ℚ)
    (h : tm < a.start_t + a.duration) :
    a.sample tm = none ∨ ∃ val, a.sample tm = some (val, a.done) := by
  simp only [Anim.sample]
  by_cases h0 : tm - a.start_t < 0
  · left
    rw [if_pos h0]
  · right
    have h1 : ¬((tm - a.start_t) / a.duration ≥ 1) := by
      rw [ge_iff_le, le_div_iff₀ hd, not_le]
      linarith
    rw [if_neg h0, if_pos hd]
    simp only [if_neg h1]
    exact ⟨_, rfl⟩

/-- Membership of a task in the completion batch b. -/
def isBatch (b : ℕ) (a : Anim) : Bool := a.cb == some b

theorem tickOne_counters_other (now : ℚ) (s : UIState) (a : Anim) (b : ℕ)
    (h : a.cb ≠ some b) :
    (tickOne now s a).1.remaining b = s.remaining b
    ∧ (tickOne now s a).1.fired b = s.fired b
    ∧ ∀ a2, (tickOne now s a).2 = some a2 → a2.cb = a.cb := by
  unfold tickOne
  cases hs : a.sample now with
  | none =>
      refine ⟨rfl, rfl, ?_⟩
      intro a2 h2
      injection h2 with h2
      rw [← h2]
  | some pr =>
      obtain ⟨val, done⟩ := pr
      dsimp only
      obtain ⟨-, -, -, hrem, hfired⟩ := setattr_v_frame_fields s a.view a.attr val
      cases done with
      | false =>
          simp only [Bool.false_eq_true, if_false]
          refine ⟨congrFun hrem b, congrFun hfired b, ?_⟩
          intro a2 h2
          injection h2 with h2
          rw [← h2]
      | true =>
          simp only [if_true]
          cases hcb : a.cb with
          | none =>
              exact ⟨congrFun hrem b, congrFun hfired b, fun a2 h2 => Option.noConfusion h2⟩
          | some b2 =>
              have hne : b ≠ b2 := by
                intro h0
                rw [h0] at h
                exact h hcb
              unfold decrementBatch
              dsimp only
              refine ⟨?_, ?_, fun a2 h2 => Option.noConfusion h2⟩
              · rw [Function.update_noteq hne]
                exact congrFun hrem b
              · split
                · rw [Function.update_noteq hne]
                  exact congrFun hfired b
                · exact congrFun hfired b

theorem tickOne_batch_before (now : ℚ) (s : UIState) (a : Anim) (b : ℕ)
    (hcb : a.cb = some b) (hdone : a.done = false) (hd : 0 < a.duration)
    (hnow : now < a.start_t + a.duration) :
    (tickOne now s a).1.remaining = s.remaining
    ∧ (tickOne now s a).1.fired = s.fired
    ∧ (tickOne now s a).2 = some a := by
  rcases sample_before_end a hd now hnow with hs | ⟨val, hs⟩
  · unfold tickOne
    rw [hs]
    exact ⟨rfl, rfl, rfl⟩
  · rw [hdone] at hs
    unfold tickOne
    rw [hs]
    dsimp only
    simp only [Bool.false_eq_true, if_false]
    obtain ⟨-, -, -, hrem, hfired⟩ := setattr_v_frame_fields s a.view a.attr val
    refine ⟨hrem, hfired, ?_⟩
    rw [show ({ a with done := false } : Anim) = a from by rw [← hdone]]

theorem tickOne_batch_finish (now : ℚ) (s : UIState) (a : Anim) (b : ℕ)
    (hcb : a.cb = some b) (hd : 0 < a.duration)
    (hnow : a.start_t + a.duration ≤ now) :
    (tickOne now s a).1.remaining b = s.remaining b - 1
    ∧ (tickOne now s a).1.fired b =
        (if s.remaining b - 1 = 0 then s.fired b + 1 else s.fired b)
    ∧ (tickOne now s a).2 = none := by
  have hs := sample_done_at_end a hd now hnow
  unfold tickOne
  rw [hs]
  dsimp only
  simp only [if_true]
  rw [hcb]
  obtain ⟨-, -, -, hrem, hfired⟩ :=
    setattr_v_frame_fields s a.view a.attr (_lerp a.startVal a.endVal (_ease_in_out 1))
  unfold decrementBatch
  dsimp only
  rw [hrem, hfired]
  refine ⟨Function.update_same _ _ _, ?_, trivial⟩
  split
  · rw [Function.update_same]
  · rfl

theorem tickFold_finish (now : ℚ) (b : ℕ) (T d : ℚ) (hd : 0 < d)
    (hnow : T + d ≤ now) (acts : List Anim) :
    ∀ (s : UIState) (acc : List Anim),
      (∀ a ∈ acts, a.cb = some b → a.done = false ∧ a.start_t = T ∧ a.duration = d) →
      s.remaining b = (acts.filter (isBatch b)).length →
      (acc.filter (isBatch b)).length = 0 →
      (acts.foldl (tickFoldStep now) (s, acc)).1.remaining b = 0
      ∧ (acts.foldl (tickFoldStep now) (s, acc)).1.fired b =
          s.fired b + (if (acts.filter (isBatch b)).length = 0 then 0 else 1)
      ∧ ((acts.foldl (tickFoldStep now) (s, acc)).2.filter (isBatch b)).length = 0 := by
  induction acts with
  | nil =>
      intro s acc hbatch hrem hacc
      simp only [List.foldl_nil, List.filter_nil, List.length_nil] at hrem ⊢
      exact ⟨hrem, by simp, hacc⟩
  | cons a rest ih =>
      intro s acc hbatch hrem hacc
      simp only [List.foldl_cons]
      by_cases hPb : a.cb = some b
      · obtain ⟨hdone, hT, hdur⟩ := hbatch a (List.mem_cons_self a rest) hPb
        have hfin := tickOne_batch_finish now s a b hPb (by rw [hdur]; exact hd)
          (by rw [hT, hdur]; exact hnow)
        have hfa : isBatch b a = true := by simp [isBatch, hPb]
        rw [List.filter_cons_of_pos hfa] at hrem ⊢
        have hstep : tickFoldStep now (s, acc) a = ((tickOne now s a).1, acc) := by
          unfold tickFoldStep
          dsimp only
          rw [hfin.2.2]
        rw [hstep]
        have hrem2 : (tickOne now s a).1.remaining b =
            (rest.filter (isBatch b)).length := by
          rw [hfin.1, hrem, List.length_cons]
          omega
        have hih := ih (tickOne now s a).1 acc
          (fun a2 ha2 => hbatch a2 (List.mem_cons_of_mem a ha2)) hrem2 hacc
        refine ⟨hih.1, ?_, hih.2.2⟩
        rw [hih.2.1, hfin.2.1, hrem, List.length_cons]
        rw [Nat.add_sub_cancel,
          if_neg (by omega : ¬((rest.filter (isBatch b)).length + 1 = 0))]
        by_cases hL : (rest.filter (isBatch b)).length = 0
        · rw [if_pos hL, if_pos hL]
        · rw [if_neg hL, if_neg hL]
      · have hoth := tickOne_counters_other now s a b hPb
        have hfa : ¬isBatch b a = true := by simp [isBatch, hPb]
        rw [List.filter_cons_of_neg hfa] at hrem ⊢
        cases hk : (tickOne now s a).2 with
        | none =>
            have hstep : tickFoldStep now (s, acc) a = ((tickOne now s a).1, acc) := by
              unfold tickFoldStep
              dsimp only
              rw [hk]
            rw [hstep]
            have hih := ih (tickOne now s a).1 acc
              (fun a2 ha2 => hbatch a2 (List.mem_cons_of_mem a ha2))
              (by rw [hoth.1, hrem]) hacc
            exact ⟨hih.1, by rw [hih.2.1, hoth.2.1], hih.2.2⟩
        | some a2 =>
            have hstep : tickFoldStep now (s, acc) a =
                ((tickOne now s a).1, acc ++ [a2]) := by
              unfold tickFoldStep
              dsimp only
              rw [hk]
            have hcb2 : a2.cb = a.cb := hoth.2.2 a2 hk
            have hfa2 : isBatch b a2 = false := by
              simp only [isBatch, hcb2]
              exact beq_eq_false_iff_ne.mpr hPb
            have hacc2 : ((acc ++ [a2]).filter (isBatch b)).length = 0 := by
              rw [List.filter_append, List.length_append, hacc]
              simp [List.filter_cons_of_neg, hfa2]
            rw [hstep]
            have hih := ih (tickOne now s a).1 (acc ++ [a2])
              (fun a3 ha3 => hbatch a3 (List.mem_cons_of_mem a ha3))
              (by rw [hoth.1, hrem]) hacc2
            exact ⟨hih.1, by rw [hih.2.1, hoth.2.1], hih.2.2⟩

theorem tickFold_no_finish (now : ℚ) (b : ℕ) (T d : ℚ) (hd : 0 < d)
    (hnow : now < T + d) (acts : List Anim) :
    ∀ (s : UIState) (acc : List Anim),
      (∀ a ∈ acts, a.cb = some b → a.done = false ∧ a.start_t = T ∧ a.duration = d) →
      (∀ a ∈ acc, a.cb = some b → a.done = false ∧ a.start_t = T ∧ a.duration = d) →
      (acts.foldl (tickFoldStep now) (s, acc)).1.remaining b = s.remaining b
      ∧ (acts.foldl (tickFoldStep now) (s, acc)).1.fired b = s.fired b
      ∧ ((acts.foldl (tickFoldStep now) (s, acc)).2.filter (isBatch b)).length =
          (acc.filter (isBatch b)).length + (acts.filter (isBatch b)).length
      ∧ (∀ a2 ∈ (acts.foldl (tickFoldStep now) (s, acc)).2, a2.cb = some b →
          a2.done = false ∧ a2.start_t = T ∧ a2.duration = d) := by
  induction acts with
  | nil =>
      intro s acc hbatch hacc
      simp only [List.foldl_nil, List.filter_nil, List.length_nil]
      exact ⟨trivial, trivial, by omega, hacc⟩
  | cons a rest ih =>
      intro s acc hbatch hacc
      simp only [List.foldl_cons]
      by_cases hPb : a.cb = some b
      · obtain ⟨hdone, hT, hdur⟩ := hbatch a (List.mem_cons_self a rest) hPb
        have hbef := tickOne_batch_before now s a b hPb hdone
          (by rw [hdur]; exact hd) (by rw [hT, hdur]; exact hnow)
        have hfa : isBatch b a = true := by simp [isBatch, hPb]
        rw [List.filter_cons_of_pos hfa]
        have hstep : tickFoldStep now (s, acc) a = ((tickOne now s a).1, acc ++ [a]) := by
          unfold tickFoldStep
          dsimp only
          rw [hbef.2.2]
        rw [hstep]
        have hacc2 : ∀ x ∈ acc ++ [a], x.cb = some b →
            x.done = false ∧ x.start_t = T ∧ x.duration = d := by
          intro x hx hxcb
          rcases List.mem_append.mp hx with hx | hx
          · exact hacc x hx hxcb
          · rw [List.mem_singleton] at hx
            rw [hx]
            exact ⟨hdone, hT, hdur⟩
        have hih := ih (tickOne now s a).1 (acc ++ [a])
          (fun a2 ha2 => hbatch a2 (List.mem_cons_of_mem a ha2)) hacc2
        refine ⟨?_, ?_, ?_, hih.2.2.2⟩
        · rw [hih.1, congrFun hbef.1 b]
        · rw [hih.2.1, congrFun hbef.2.1 b]
        · rw [hih.2.2.1, List.filter_append, List.length_append,
            List.filter_cons_of_pos hfa]
          simp only [List.filter_nil, List.length_cons, List.length_nil]
          omega
      · have hoth := tickOne_counters_other now s a b hPb
        have hfa : ¬isBatch b a = true := by simp [isBatch, hPb]
        rw [List.filter_cons_of_neg hfa]
        cases hk : (tickOne now s a).2 with
        | none =>
            have hstep : tickFoldStep now (s, acc) a = ((tickOne now s a).1, acc) := by
              unfold tickFoldStep
              dsimp only
              rw [hk]
            rw [hstep]
            have hih := ih (tickOne now s a).1 acc
              (fun a2 ha2 => hbatch a2 (List.mem_cons_of_mem a ha2)) hacc
            exact ⟨by rw [hih.1, hoth.1], by rw [hih.2.1, hoth.2.1],
              hih.2.2.1, hih.2.2.2⟩
        | some a2 =>
            have hstep : tickFoldStep now (s, acc) a =
                ((tickOne now s a).1, acc ++ [a2]) := by
              unfold tickFoldStep
              dsimp only
              rw [hk]
            have hcb2 : a2.cb = a.cb := hoth.2.2 a2 hk
            have hfa2 : isBatch b a2 = false := by
              simp only [isBatch, hcb2]
              exact beq_eq_false_iff_ne.mpr hPb
            have hacc2 : ∀ x ∈ acc ++ [a2], x.cb = some b →
                x.done = false ∧ x.start_t = T ∧ x.duration = d := by
              intro x hx hxcb
              rcases List.mem_append.mp hx with hx | hx
              · exact hacc x hx hxcb
              · rw [List.mem_singleton] at hx
                rw [hx, hcb2] at hxcb
                exact absurd hxcb hPb
            rw [hstep]
            have hih := ih (tickOne now s a).1 (acc ++ [a2])
              (fun a3 ha3 => hbatch a3 (List.mem_cons_of_mem a ha3)) hacc2
            refine ⟨by rw [hih.1, hoth.1], by rw [hih.2.1, hoth.2.1], ?_,
              hih.2.2.2⟩
            rw [hih.2.2.1, List.filter_append, List.length_append]
            simp [List.filter_cons_of_neg, hfa2]

/-- Invariant before a batch finishes: its completion has not fired, the
shared count equals the number of its tasks still active (at least one),
and every active task of the batch is unfinished with the shared start
time and duration. -/
def BatchPre (b : ℕ) (T d : ℚ) (st : UIState) : Prop :=
  st.fired b = 0
  ∧ st.remaining b = (st.active.filter (isBatch b)).length
  ∧ (st.active.filter (isBatch b)).length ≠ 0
  ∧ ∀ a ∈ st.active, a.cb = some b →
      a.done = false ∧ a.start_t = T ∧ a.duration = d

/-- Invariant after a batch finished: its completion fired exactly once
and none of its tasks remain active. -/
def BatchPost (b : ℕ) (st : UIState) : Prop :=
  st.fired b = 1 ∧ (st.active.filter (isBatch b)).length = 0

theorem tick_pre_to_pre (b : ℕ) (T d : ℚ) (hd : 0 < d) (now : ℚ)
    (hnow : now < T + d) (st : UIState) (h : BatchPre b T d st) :
    BatchPre b T d (_tick now st) := by
  obtain ⟨h1, h2, h3, h4⟩ := h
  have hne : ¬st.active.isEmpty = true := by
    intro h0
    rw [List.isEmpty_iff.mp h0] at h3
    simp at h3
  unfold _tick
  rw [if_neg hne]
  obtain ⟨g1, g2, g3, g4⟩ :=
    tickFold_no_finish now b T d hd hnow st.active st [] h4 (by simp)
  refine ⟨?_, ?_, ?_, ?_⟩
  · dsimp only
    rw [g2, h1]
  · dsimp only
    rw [g1, g3, h2]
    simp
  · dsimp only
    rw [g3]
    simpa using h3
  · dsimp only
    exact g4

theorem tick_pre_to_post (b : ℕ) (T d : ℚ) (hd : 0 < d) (now : ℚ)
    (hnow : T + d ≤ now) (st : UIState) (h : BatchPre b T d st) :
    BatchPost b (_tick now st) := by
  obtain ⟨h1, h2, h3, h4⟩ := h
  have hne : ¬st.active.isEmpty = true := by
    intro h0
    rw [List.isEmpty_iff.mp h0] at h3
    simp at h3
  unfold _tick
  rw [if_neg hne]
  obtain ⟨g1, g2, g3⟩ :=
    tickFold_finish now b T d hd hnow st.active st [] h4 h2 (by simp)
  constructor
  · dsimp only
    rw [g2, h1, if_neg h3]
  · dsimp only
    exact g3

theorem tick_post_to_post (b : ℕ) (now : ℚ) (st : UIState)
    (h : BatchPost b st) : BatchPost b (_tick now st) := by
  obtain ⟨h1, h2⟩ := h
  unfold _tick
  by_cases hemp : st.active.isEmpty = true
  · rw [if_pos hemp]
    exact ⟨h1, h2⟩
  · rw [if_neg hemp]
    have hnob : ∀ a ∈ st.active, a.cb = some b →
        a.done = false ∧ a.start_t = now ∧ a.duration = 1 := by
      intro a ha hcb
      have := (List.filter_eq_nil_iff.mp (List.length_eq_zero.mp h2)) a ha
      simp [isBatch, hcb] at this
    obtain ⟨g1, g2, g3, -⟩ :=
      tickFold_no_finish now b now 1 (by norm_num) (by linarith) st.active st []
        hnob (by simp)
    constructor
    · dsimp only
      rw [g2, h1]
    · dsimp only
      rw [g3, h2]
      simp

theorem applyTicks_post (b : ℕ) (times : List ℚ) :
    ∀ st : UIState, BatchPost b st → BatchPost b (applyTicks times st) := by
  induction times with
  | nil =>
      intro st h
      exact h
  | cons tm rest ih =>
      intro st h
      exact ih _ (tick_post_to_post b tm st h)

/-- The user completion of batch b fires exactly once, on the first tick
at which the batch's shared end time has been reached, and never again. -/
theorem applyTicks_fired (b : ℕ) (T d : ℚ) (hd : 0 < d) (times : List ℚ) :
    ∀ st : UIState, BatchPre b T d st →
      (applyTicks times st).fired b =
        if times.any (fun tm => decide (T + d ≤ tm)) then 1 else 0 := by
  induction times with
  | nil =>
      intro st h
      simp only [List.any_nil, if_false, Bool.false_eq_true]
      exact h.1
  | cons tm rest ih =>
      intro st h
      simp only [applyTicks, List.foldl_cons, List.any_cons]
      by_cases hq : T + d ≤ tm
      · have hpost := applyTicks_post b rest (_tick tm st)
          (tick_pre_to_post b T d hd tm hq st h)
        simp only [decide_eq_true hq, Bool.true_or, if_true]
        exact hpost.1
      · have hpre := tick_pre_to_pre b T d hd tm (by linarith [not_le.mp hq]) st h
        have := ih (_tick tm st) hpre
        simp only [decide_eq_false hq, Bool.false_or]
        exact this

theorem animate_schedule_eq (body : List BodyStep) (duration delay : ℚ)
    (hc : Bool) (now : ℚ) (s : UIState)
    (hnoraise : (runBody body { s with recording := true, records := [] }).2 = false)
    (hd : 0 < duration)
    (hne : (runBody body { s with recording := true, records := [] }).1.records ≠ []) :
    animate body duration delay hc now s =
      ({ store := s.store, recording := false, records := [],
         active := s.active ++
           ((runBody body { s with recording := true, records := [] }).1.records.map
             (fun r => Anim.mk r.view r.attr r.startVal r.endVal (now + delay)
               duration (if hc = true then some s.nextBatch else none) false)),
         nextBatch := s.nextBatch + 1,
         remaining := Function.update s.remaining s.nextBatch
           (runBody body { s with recording := true, records := [] }).1.records.length,
         fired := Function.update s.fired s.nextBatch 0 },
       ⟨false, false,
         (runBody body { s with recording := true, records := [] }).1.records.map
           (fun r => Anim.mk r.view r.attr r.startVal r.endVal (now + delay)
             duration (if hc = true then some s.nextBatch else none) false)⟩) := by
  obtain ⟨hst, -, hact, hnb, hrem, hfired⟩ :=
    runBody_of_recording body { s with recording := true, records := [] } rfl
  simp only [animate]
  rw [hnoraise]
  simp only [Bool.false_eq_true, if_false]
  rw [if_neg (not_le.mpr hd)]
  rw [if_neg (show ¬((runBody body
      { s with recording := true, records := [] }).1.records.isEmpty = true) from
    fun h0 => hne (List.isEmpty_iff.mp h0))]
  rw [hst, hact, hnb, hrem, hfired]

/-- C2: an animate call with positive duration over a nonempty recording
schedules one task per captured record, appended to the active list; every
scheduled task carries the shared start time now + delay and the shared
duration, samples its recorded start value (unfinished) at elapsed time 0
and exactly its recorded end value (finished) at any elapsed time at or
past the duration; and over any sequence of frame ticks the user
completion of the batch fires exactly once, namely on the first tick at or
past the shared end time, at which the last of the batch's tasks
finishes. -/
theorem c2_animate_endpoints_and_single_completion
    (body : List BodyStep) (duration delay now : ℚ) (s : UIState)
    (hd : 0 < duration)
    (hnoraise : (runBody body { s with recording := true, records := [] }).2 = false)
    (hne : (runBody body { s with recording := true, records := [] }).1.records ≠ [])
    (hcompat : ∀ r ∈ (runBody body { s with recording := true, records := [] }).1.records,
        Val.compatB r.startVal r.endVal = true)
    (hfresh : ∀ a ∈ s.active, a.cb ≠ some s.nextBatch) :
    (animate body duration delay true now s).2.scheduled.length =
        (runBody body { s with recording := true, records := [] }).1.records.length
    ∧ (animate body duration delay true now s).1.active =
        s.active ++ (animate body duration delay true now s).2.scheduled
    ∧ (∀ a ∈ (animate body duration delay true now s).2.scheduled,
        a.start_t = now + delay ∧ a.duration = duration
        ∧ (∃ r ∈ (runBody body { s with recording := true, records := [] }).1.records,
            a.startVal = r.startVal ∧ a.endVal = r.endVal
            ∧ a.view = r.view ∧ a.attr = r.attr)
        ∧ a.sample (now + delay) = some (a.startVal, false)
        ∧ ∀ tm, now + delay + duration ≤ tm → a.sample tm = some (a.endVal, true))
    ∧ (∀ times : List ℚ,
        (applyTicks times (animate body duration delay true now s).1).fired s.nextBatch =
          if times.any (fun tm => decide (now + delay + duration ≤ tm)) then 1 else 0) := by
  have heq := animate_schedule_eq body duration delay true now s hnoraise hd hne
  rw [heq]
  dsimp only
  have hfilter : ((s.active ++
      ((runBody body { s with recording := true, records := [] }).1.records.map
        (fun r => Anim.mk r.view r.attr r.startVal r.endVal (now + delay)
          duration (if true = true then some s.nextBatch else none) false))).filter
        (isBatch s.nextBatch)) =
      ((runBody body { s with recording := true, records := [] }).1.records.map
        (fun r => Anim.mk r.view r.attr r.startVal r.endVal (now + delay)
          duration (if true = true then some s.nextBatch else none) false)) := by
    rw [List.filter_append]
    have h1 : s.active.filter (isBatch s.nextBatch) = [] := by
      rw [List.filter_eq_nil_iff]
      intro a ha
      simp only [isBatch, beq_iff_eq]
      exact hfresh a ha
    have h2 : (((runBody body { s with recording := true, records := [] }).1.records.map
        (fun r => Anim.mk r.view r.attr r.startVal r.endVal (now + delay)
          duration (if true = true then some s.nextBatch else none) false)).filter
          (isBatch s.nextBatch)) =
        ((runBody body { s with recording := true, records := [] }).1.records.map
          (fun r => Anim.mk r.view r.attr r.startVal r.endVal (now + delay)
            duration (if true = true then some s.nextBatch else none) false)) := by
      rw [List.filter_eq_self]
      intro a ha
      rw [List.mem_map] at ha
      obtain ⟨r, -, rfl⟩ := ha
      simp [isBatch]
    rw [h1, h2, List.nil_append]
  refine ⟨by rw [List.length_map], rfl, ?_, ?_⟩
  · intro a ha
    rw [List.mem_map] at ha
    obtain ⟨r, hr, rfl⟩ := ha
    refine ⟨rfl, rfl, ⟨r, hr, rfl, rfl, rfl, rfl⟩, ?_, ?_⟩
    · exact sample_at_start
        (Anim.mk r.view r.attr r.startVal r.endVal (now + delay) duration
          (if true = true then some s.nextBatch else none) false) hd (hcompat r hr)
    · intro tm htm
      exact sample_at_end
        (Anim.mk r.view r.attr r.startVal r.endVal (now + delay) duration
          (if true = true then some s.nextBatch else none) false) hd (hcompat r hr) tm htm
  · intro times
    apply applyTicks_fired s.nextBatch (now + delay) duration hd times
    refine ⟨Function.update_same _ _ _, ?_, ?_, ?_⟩
    · dsimp only
      rw [Function.update_same, hfilter, List.length_map]
    · dsimp only
      rw [hfilter, List.length_map]
      intro h0
      exact hne (List.length_eq_zero.mp h0)
    · dsimp only
      intro a ha hcb
      rcases List.mem_append.mp ha with ha | ha
      · exact absurd hcb (hfresh a ha)
      · rw [List.mem_map] at ha
        obtain ⟨r, -, rfl⟩ := ha
        exact ⟨rfl, rfl, rfl⟩

/-- Body for the C2 witness: animate alpha of view 5 to 1 and x of view
6 to 100. -/
def c2body : List BodyStep :=
  [BodyStep.write 5 "alpha" (Val.num 1), BodyStep.write 6 "x" (Val.num 100)]

/-- C2 witness: the theorem applied to the concrete two-write body over
the detached initial state with duration 1 and no delay. -/
theorem c2_witness :
    (animate c2body 1 0 true 0 initUI).2.scheduled.length =
        (runBody c2body { initUI with recording := true, records := [] }).1.records.length
    ∧ (animate c2body 1 0 true 0 initUI).1.active =
        initUI.active ++ (animate c2body 1 0 true 0 initUI).2.scheduled
    ∧ (∀ a ∈ (animate c2body 1 0 true 0 initUI).2.scheduled,
        a.start_t = 0 + 0 ∧ a.duration = 1
        ∧ (∃ r ∈ (runBody c2body { initUI with recording := true, records := [] }).1.records,
            a.startVal = r.startVal ∧ a.endVal = r.endVal
            ∧ a.view = r.view ∧ a.attr = r.attr)
        ∧ a.sample (0 + 0) = some (a.startVal, false)
        ∧ ∀ tm, 0 + 0 + 1 ≤ tm → a.sample tm = some (a.endVal, true))
    ∧ (∀ times : List ℚ,
        (applyTicks times (animate c2body 1 0 true 0 initUI).1).fired initUI.nextBatch =
          if times.any (fun tm => decide ((0 : ℚ) + 0 + 1 ≤ tm)) then 1 else 0) := by
  have hrecs : (runBody c2body { initUI with recording := true, records := [] }).1.records =
      [⟨5, "alpha", Val.num 0, Val.num 1⟩, ⟨6, "x", Val.num 0, Val.num 100⟩] := rfl
  exact c2_animate_endpoints_and_single_completion c2body 1 0 0 initUI
    (by norm_num) rfl
    (by rw [hrecs]; exact fun h => List.noConfusion h)
    (by
      rw [hrecs]
      intro r hr
      rcases List.mem_cons.mp hr with hr1 | hr2
      · rw [hr1]
        rfl
      · rcases List.mem_cons.mp hr2 with hr1 | hr3
        · rw [hr1]
          rfl
        · exact absurd hr3 (List.not_mem_nil r))
    (by
      intro a ha
      exact absurd ha (List.not_mem_nil a))

end Pytoui
